import Mathlib

/-!
MyTerminal: a shallow embedding of `myterminal.c`

The development follows the C source function by function.

* C strings are lists of characters: the characters that stand before the
  terminating NUL.  `strcmp`, `strncmp`, `strtok`, `strchr`, `strspn` and
  `strlen` are modelled on such lists.
* `int` values are mathematical integers; the C operator `%` is `Int.tmod`
  (truncation towards zero), `fputc` converts to `unsigned char` modulo 256.
* A `FILE` opened with mode `"r+"` is a byte list with a position; the file
  system maps a path to the bytes stored under it.
* `printf`, `system` and the calls of the program's own functions are recorded
  in a trace carried by the `World`.
* `while` loops take a fuel argument; running out of fuel and an access outside
  an allocated array are reported as a `Fault`.
* `strdup`, `calloc` and `realloc` are taken to succeed (the branches for a
  failed allocation are not modelled).
* Standard input is the list of the lines that the successive `fgets` calls
  deliver; `main` takes it together with `argc` and `argv`.
-/

namespace MyTerminal

/-! ## Basic types -/

/-- One byte of a file, an `unsigned char`. -/
abbrev Byte := Fin 256

/-- The characters of a C string before its terminating NUL. -/
abbrev CStr := List Char

/-- What can go wrong in the model itself. -/
inductive Fault where
  | outOfFuel
  | outOfBounds
  deriving DecidableEq, Repr

/-- The value of a character constant as an `int`. -/
def ord (c : Char) : Int := (c.toNat : Int)

/-- The macro `EOF` of `<stdio.h>`. -/
def EOF : Int := -1

/-- The macro `MAX_COMMAND_LENGTH`. -/
def MAX_COMMAND_LENGTH : Nat := 256

/-- The macro `SHIFT`. -/
def SHIFT : Int := 3

/-! ## `<string.h>` -/

/-- The function `strcmp`; only the sign of the result is specified by C. -/
def strcmp : CStr → CStr → Int
  | [], [] => 0
  | [], _ :: _ => -1
  | _ :: _, [] => 1
  | a :: as, b :: bs => if a = b then strcmp as bs else if a < b then -1 else 1

/-- The function `strncmp`: compares at most `n` characters. -/
def strncmp : CStr → CStr → Nat → Int
  | _, _, 0 => 0
  | [], [], _ + 1 => 0
  | [], _ :: _, _ + 1 => -1
  | _ :: _, [], _ + 1 => 1
  | a :: as, b :: bs, n + 1 =>
    if a = b then strncmp as bs n else if a < b then -1 else 1

/-- The function `strlen`. -/
def strlen (s : CStr) : Nat := s.length

/-- The function `strdup` (allocation succeeds). -/
def strdup (s : CStr) : CStr := s

/-- The function `strchr`: the index of the first occurrence of `c`, if any. -/
def strchr : CStr → Char → Option Nat
  | [], _ => none
  | a :: as, c => if a = c then some 0 else (strchr as c).map (· + 1)

/-- The function `strspn`: length of the longest initial segment made of
characters of `accept`. -/
def strspn (s accept : CStr) : Nat := (s.takeWhile (fun c => decide (c ∈ accept))).length

/-- The function `strtok` with its hidden position made explicit: `s` is what is
left to scan; the result is the next token together with what is left after it,
or `none` (a NULL token) when only delimiters remain. -/
def strtok (s delim : CStr) : Option (CStr × CStr) :=
  let s1 := s.dropWhile (fun c => decide (c ∈ delim))
  if s1 = [] then none
  else
    some (s1.takeWhile (fun c => !decide (c ∈ delim)),
          (s1.dropWhile (fun c => !decide (c ∈ delim))).drop 1)

/-! ## The Caesar cipher on one character -/

/-- The expression `base + (ch - base + SHIFT) % m` of `encryptFile`. -/
def encryptExpr (base m ch : Int) : Int := base + Int.tmod (ch - base + SHIFT) m

/-- The expression `base + (ch - base - SHIFT + m) % m` of `decryptFile`. -/
def decryptExpr (base m ch : Int) : Int := base + Int.tmod (ch - base - SHIFT + m) m

/-- The values of the subexpressions of `base + (ch - base + SHIFT) % m`, in
the order in which they are computed. -/
def encryptExprSteps (base m ch : Int) : List Int :=
  [ch - base, ch - base + SHIFT, Int.tmod (ch - base + SHIFT) m,
   base + Int.tmod (ch - base + SHIFT) m]

/-- The values of the subexpressions of `base + (ch - base - SHIFT + m) % m`,
in the order in which they are computed (`-` and `+` associate to the left). -/
def decryptExprSteps (base m ch : Int) : List Int :=
  [ch - base, ch - base - SHIFT, ch - base - SHIFT + m,
   Int.tmod (ch - base - SHIFT + m) m, base + Int.tmod (ch - base - SHIFT + m) m]

/-- The body of the `if` chain in the loop of `encryptFile`: the new value of `ch`. -/
def encryptChar (ch : Int) : Int :=
  if ord 'a' ≤ ch ∧ ch ≤ ord 'z' then encryptExpr (ord 'a') 26 ch
  else if ord 'A' ≤ ch ∧ ch ≤ ord 'Z' then encryptExpr (ord 'A') 26 ch
  else if ord '0' ≤ ch ∧ ch ≤ ord '9' then encryptExpr (ord '0') 10 ch
  else ch

/-- The body of the `if` chain in the loop of `decryptFile`: the new value of `ch`. -/
def decryptChar (ch : Int) : Int :=
  if ord 'a' ≤ ch ∧ ch ≤ ord 'z' then decryptExpr (ord 'a') 26 ch
  else if ord 'A' ≤ ch ∧ ch ≤ ord 'Z' then decryptExpr (ord 'A') 26 ch
  else if ord '0' ≤ ch ∧ ch ≤ ord '9' then decryptExpr (ord '0') 10 ch
  else ch

/-- The intermediate values computed by the `if` chain of `encryptFile` for `ch`. -/
def encryptSteps (ch : Int) : List Int :=
  if ord 'a' ≤ ch ∧ ch ≤ ord 'z' then encryptExprSteps (ord 'a') 26 ch
  else if ord 'A' ≤ ch ∧ ch ≤ ord 'Z' then encryptExprSteps (ord 'A') 26 ch
  else if ord '0' ≤ ch ∧ ch ≤ ord '9' then encryptExprSteps (ord '0') 10 ch
  else []

/-- The intermediate values computed by the `if` chain of `decryptFile` for `ch`. -/
def decryptSteps (ch : Int) : List Int :=
  if ord 'a' ≤ ch ∧ ch ≤ ord 'z' then decryptExprSteps (ord 'a') 26 ch
  else if ord 'A' ≤ ch ∧ ch ≤ ord 'Z' then decryptExprSteps (ord 'A') 26 ch
  else if ord '0' ≤ ch ∧ ch ≤ ord '9' then decryptExprSteps (ord '0') 10 ch
  else []

/-! ## `<stdio.h>` streams -/

/-- One access to the bytes of an open file. -/
inductive Access where
  | read (offset : Nat)
  | write (offset : Nat)
  deriving DecidableEq, Repr

/-- An open stream: the bytes of the file, the file position, and the accesses
made so far (oldest first). -/
structure FILE where
  data : List Byte
  pos : Nat
  log : List Access

/-- The function `fgetc`: the byte at the position as an `int`, or `EOF`. -/
def fgetc (fp : FILE) : Int × FILE :=
  match fp.data[fp.pos]? with
  | some b => ((b.val : Int), { fp with pos := fp.pos + 1, log := fp.log ++ [Access.read fp.pos] })
  | none => (EOF, fp)

/-- The call `fseek(fp, offset, SEEK_CUR)`; a seek before the start fails and
leaves the position where it was. -/
def fseekCur (fp : FILE) (offset : Int) : FILE :=
  if 0 ≤ (fp.pos : Int) + offset then { fp with pos := ((fp.pos : Int) + offset).toNat } else fp

/-- Conversion of an `int` to `unsigned char`. -/
def toUChar (ch : Int) : Byte := Fin.ofNat (ch % 256).toNat

/-- The function `fputc`: writes the byte at the position, extending the file
when the position is at or past its end. -/
def fputc (ch : Int) (fp : FILE) : FILE :=
  if fp.pos < fp.data.length then
    { data := fp.data.set fp.pos (toUChar ch), pos := fp.pos + 1,
      log := fp.log ++ [Access.write fp.pos] }
  else
    { data := fp.data ++ List.replicate (fp.pos - fp.data.length) 0 ++ [toUChar ch],
      pos := fp.pos + 1, log := fp.log ++ [Access.write fp.pos] }

/-- The loop `while ((ch = fgetc(fp)) != EOF) { ... }` of `encryptFile`. -/
def encryptLoop : Nat → FILE → Except Fault FILE
  | 0, _ => .error .outOfFuel
  | fuel + 1, fp =>
    let r := fgetc fp
    if r.1 = EOF then .ok r.2
    else
      let ch := encryptChar r.1
      let fp1 := fseekCur r.2 (-1)
      let fp2 := fputc ch fp1
      let fp3 := fseekCur fp2 0
      encryptLoop fuel fp3

/-- The loop `while ((ch = fgetc(fp)) != EOF) { ... }` of `decryptFile`. -/
def decryptLoop : Nat → FILE → Except Fault FILE
  | 0, _ => .error .outOfFuel
  | fuel + 1, fp =>
    let r := fgetc fp
    if r.1 = EOF then .ok r.2
    else
      let ch := decryptChar r.1
      let fp1 := fseekCur r.2 (-1)
      let fp2 := fputc ch fp1
      let fp3 := fseekCur fp2 0
      decryptLoop fuel fp3

/-! ## The world: file system and trace -/

/-- The file system: the bytes stored under each path that can be opened. -/
abbrev FS := CStr → Option (List Byte)

/-- Storing `bytes` under `path`. -/
def FS.write (fs : FS) (path : CStr) (bytes : List Byte) : FS :=
  fun p => if p = path then some bytes else fs p

/-- What the program does that can be observed: one `printf`, or the entry
into one of its functions or into a library function with an outside effect. -/
inductive Event where
  | printf (text : String)
  | intro
  | tokenizeCommandLine (input : CStr)
  | handleCommandLineArguments (argc : Nat)
  | executeSystemCommand (command : CStr)
  | system (command : CStr)
  | encryptFile (filename : CStr)
  | decryptFile (filename : CStr)
  | fopen (filename : CStr)
  | readUserInput
  deriving DecidableEq, Repr

/-- The state outside the program: the files and what has happened so far. -/
structure World where
  fs : FS
  trace : List Event

/-- Appending one event to the trace. -/
def World.emit (w : World) (e : Event) : World := { w with trace := w.trace ++ [e] }

/-- One call of `printf`, with the text it writes. -/
def World.printf (w : World) (text : String) : World := w.emit (Event.printf text)

/-- The external command executor behind `system`: from the command string and
the files it finds to a status and the files it leaves. -/
abbrev Adapter := CStr → FS → Int × FS

/-- The function `printErrorMessage`. -/
def printErrorMessage (message : String) (w : World) : World :=
  w.printf (message ++ "\n")

/-- The texts written by `intro`, one per `printf`. -/
def introLines : List String :=
  ["Welcome to MyTerminal!\n\n",
   "This custom terminal application mimics the basic functionalities of standard terminals found in operating systems.\n",
   "It allows you to execute system commands like \x27ls\x27 and \x27pwd\x27, as well as to encrypt and decrypt text files using a Caesar Cipher.\n\n",
   "Usage:\n",
   "  - To execute system commands, simply type the command (e.g., \x27ls\x27, \x27pwd\x27) and press Enter.\n",
   "  - To encrypt a file, use the command: secure_file -f <filename> -e\n",
   "  - To decrypt a file, use the command: secure_file -f <filename> -d\n",
   "  - Type \x27exit\x27 or \x27quit\x27 to terminate the application.\n",
   "  - Use \x27?\x27 to list this information again.\n\n",
   "Please note: This application is designed for educational purposes and uses \x27system()\x27 for command execution, which is not secure for production systems.\n\n",
   "Please be aware:\n",
   "- Encrypting a file that has already been encrypted will further modify its contents, potentially making it unrecoverable.\n",
   "- Similarly, decrypting a file that was not encrypted, or was encrypted with a different key, will also alter its contents.\n\n",
   "Enjoy using MyTerminal!\n"]

/-- The function `intro`. -/
def intro (w : World) : World :=
  { w with trace := w.trace ++ Event.intro :: introLines.map Event.printf }

/-! ## The file transform engine -/

/-- The function `encryptFile`: the returned `int` and the world it leaves. -/
def encryptFile (fuel : Nat) (filename : CStr) (w : World) : Except Fault (Int × World) :=
  let w0 := (w.emit (Event.encryptFile filename)).emit (Event.fopen filename)
  match w0.fs filename with
  | none =>
    let w1 := w0.printf ("Error opening file: " ++ String.mk filename ++ "\n")
    let w2 := w1.printf "No such file or directory.\n\n"
    .ok (-1, w2)
  | some bytes =>
    match encryptLoop fuel { data := bytes, pos := 0, log := [] } with
    | .error e => .error e
    | .ok fp => .ok (0, { w0 with fs := w0.fs.write filename fp.data })

/-- The function `decryptFile`: the returned `int` and the world it leaves. -/
def decryptFile (fuel : Nat) (filename : CStr) (w : World) : Except Fault (Int × World) :=
  let w0 := (w.emit (Event.decryptFile filename)).emit (Event.fopen filename)
  match w0.fs filename with
  | none =>
    let w1 := w0.printf ("Error opening file: " ++ String.mk filename ++ "\n")
    let w2 := w1.printf "No such file or directory.\n\n"
    .ok (-1, w2)
  | some bytes =>
    match decryptLoop fuel { data := bytes, pos := 0, log := [] } with
    | .error e => .error e
    | .ok fp => .ok (0, { w0 with fs := w0.fs.write filename fp.data })

/-! ## Argument vectors -/

/-- One cell of a `char **` array: NULL, a pointer to a string, or whatever
`realloc` left in a cell that was never written. -/
inductive Ptr where
  | null
  | str (s : CStr)
  | junk
  deriving DecidableEq, Repr

/-- The call `calloc(n, sizeof(char *))`: `n` cells, all NULL. -/
def calloc (n : Nat) : List Ptr := List.replicate n Ptr.null

/-- The call `realloc(a, n * sizeof(char *))`: the old cells are kept, the new
ones hold indeterminate values. -/
def realloc (a : List Ptr) (n : Nat) : List Ptr :=
  a.take n ++ List.replicate (n - a.length) Ptr.junk

/-- The assignment `a[i] = p`; outside the allocated cells it is a fault. -/
def store (a : List Ptr) (i : Nat) (p : Ptr) : Except Fault (List Ptr) :=
  if i < a.length then .ok (a.set i p) else .error .outOfBounds

/-- Reading `a[i]` as a string; a cell outside the array, or one that holds no
string, is a fault. -/
def loadStr (a : List Ptr) (i : Nat) : Except Fault CStr :=
  match a[i]? with
  | some (Ptr.str s) => .ok s
  | _ => .error .outOfBounds

/-- The variables `size`, `argc` and `argv` of `tokenizeCommandLine`. -/
structure ArgVec where
  size : Nat
  argc : Nat
  argv : List Ptr

/-- The delimiter string `" \n"` handed to `strtok`. -/
def delims : CStr := " \n".toList

/-- The loop `while (token) { ... }` of `tokenizeCommandLine`; `token` is the
result of the latest `strtok` call. -/
def tokenLoop : Nat → Option (CStr × CStr) → ArgVec → Except Fault ArgVec
  | 0, _, _ => .error .outOfFuel
  | _ + 1, none, v => .ok v
  | fuel + 1, some (token, rest), v =>
    let v1 : ArgVec :=
      if v.argc ≥ v.size - 1 then
        { v with size := v.size * 2, argv := realloc v.argv (v.size * 2) }
      else v
    match store v1.argv v1.argc (Ptr.str (strdup token)) with
    | .error e => .error e
    | .ok a => tokenLoop fuel (strtok rest delims) { v1 with argv := a, argc := v1.argc + 1 }

/-- Lines 149 to 187 of `tokenizeCommandLine`: the argument vector built from
the input line, with the NULL sentinel stored after the last token. -/
def buildArgv (fuel : Nat) (input : CStr) : Except Fault ArgVec :=
  let inputCopy := strdup input
  match tokenLoop fuel (strtok inputCopy delims) { size := 5, argc := 0, argv := calloc 5 } with
  | .error e => .error e
  | .ok v =>
    match store v.argv v.argc Ptr.null with
    | .error e => .error e
    | .ok a => .ok { v with argv := a }

/-- The variables `filename` and `action` of `handleCommandLineArguments`;
`none` is the NULL pointer, and `action` starts as the NUL character. -/
structure Request where
  filename : Option CStr
  action : Char

/-- The loop `for (int i = 1; i < argc; i++) { ... }` of
`handleCommandLineArguments`. -/
def scanArgs (argc : Nat) (argv : List Ptr) : Nat → Nat → Request → Except Fault Request
  | 0, _, _ => .error .outOfFuel
  | fuel + 1, i, r =>
    if i < argc then
      match loadStr argv i with
      | .error e => .error e
      | .ok arg =>
        if strcmp arg "-f".toList = 0 ∧ i + 1 < argc then
          match loadStr argv (i + 1) with
          | .error e => .error e
          | .ok name => scanArgs argc argv fuel (i + 1 + 1) { r with filename := some name }
        else if strcmp arg "-e".toList = 0 then
          scanArgs argc argv fuel (i + 1) { r with action := 'e' }
        else if strcmp arg "-d".toList = 0 then
          scanArgs argc argv fuel (i + 1) { r with action := 'd' }
        else scanArgs argc argv fuel (i + 1) r
    else .ok r

/-- The usage line printed with the program name `name`. -/
def usageLine (name : CStr) : String :=
  "Usage: " ++ String.mk name ++ " -f <filename> [-e | -d] (Encrypt/Decrypt)\n"

/-- The call `printf("Usage: %s -f <filename> [-e | -d] (Encrypt/Decrypt)\n", argv[0])`. -/
def printUsage (argv : List Ptr) (w : World) : Except Fault World :=
  match loadStr argv 0 with
  | .error e => .error e
  | .ok name => .ok (w.printf (usageLine name))

/-- The function `handleCommandLineArguments`.  A cell `argv[i]` is read as a
string where the source reads it; `filename` is read as a string when it is
assigned. -/
def handleCommandLineArguments (fuel : Nat) (argc : Nat) (argv : List Ptr) (w : World) :
    Except Fault World :=
  let w0 := w.emit (Event.handleCommandLineArguments argc)
  if argc < 3 then printUsage argv w0
  else
    match scanArgs argc argv fuel 1 { filename := none, action := Char.ofNat 0 } with
    | .error e => .error e
    | .ok r =>
      match r.filename with
      | none => printUsage argv (w0.printf "Error: Missing required arguments.\n")
      | some filename =>
        if r.action = Char.ofNat 0 then
          printUsage argv (w0.printf "Error: Missing required arguments.\n")
        else if r.action = 'e' then
          match encryptFile fuel filename w0 with
          | .error e => .error e
          | .ok (result, w1) =>
            if result = 0 then .ok (w1.printf ("File encrypted: " ++ String.mk filename ++ "\n"))
            else .ok w1
        else if r.action = 'd' then
          match decryptFile fuel filename w0 with
          | .error e => .error e
          | .ok (result, w1) =>
            if result = 0 then .ok (w1.printf ("File decrypted: " ++ String.mk filename ++ "\n"))
            else .ok w1
        else .ok w0

/-- The function `tokenizeCommandLine`. -/
def tokenizeCommandLine (fuel : Nat) (input : CStr) (w : World) : Except Fault World :=
  let w0 := w.emit (Event.tokenizeCommandLine input)
  match buildArgv fuel input with
  | .error e => .error e
  | .ok v =>
    match (if v.argc > 1 then loadStr v.argv 0 else .ok []) with
    | .error e => .error e
    | .ok first =>
      if v.argc > 1 ∧ strcmp first "secure_file".toList = 0 then
        handleCommandLineArguments fuel v.argc v.argv w0
      else
        .ok ((w0.printf "Command Incomplete. Please see usage below.\n").printf
          "Usage: secure_file -f <filename> [-e | -d] (Encrypt/Decrypt)\n")

/-! ## The dispatcher -/

/-- The function `executeSystemCommand`. -/
def executeSystemCommand (sys : Adapter) (command : CStr) (w : World) : World :=
  let w0 := w.emit (Event.executeSystemCommand command)
  let cmdCopy := strdup command
  let cmdCopy1 :=
    match strchr cmdCopy '\n' with
    | some k => cmdCopy.take k
    | none => cmdCopy
  if strlen cmdCopy1 = 0 ∨ strspn cmdCopy1 " \t".toList = strlen cmdCopy1 then
    w0.printf "Unknown command, unable to execute. Type \x27?\x27 to see the introduction.\n"
  else
    let r := sys cmdCopy1 w0.fs
    let w1 : World := { fs := r.2, trace := w0.trace ++ [Event.system cmdCopy1] }
    if r.1 = -1 then printErrorMessage "Failed to execute system command." w1
    else if r.1 ≠ 0 then
      (printErrorMessage
        "System command did not execute successfully. Possible Unknown Command." w1).printf
        "Type \x27?\x27 to see the introduction again.\n"
    else w1

/-- The function `parseAndExecuteCommand`: the returned `int` and the world it leaves. -/
def parseAndExecuteCommand (sys : Adapter) (fuel : Nat) (input : CStr) (w : World) :
    Except Fault (Int × World) :=
  if strcmp input "?\n".toList = 0 then .ok (1, intro w)
  else if strncmp input "exit\n".toList 5 = 0 ∨ strncmp input "quit\n".toList 5 = 0 then
    .ok (0, w)
  else if strncmp input "secure_file".toList 11 = 0 then
    match tokenizeCommandLine fuel input w with
    | .error e => .error e
    | .ok w1 => .ok (1, w1)
  else .ok (1, executeSystemCommand sys input w)

/-! ## Derived notions used in the statements -/

/-- The byte that one pass of the loop of `encryptFile` leaves in place of the
byte `b`: `fgetc`, the `if` chain, `fputc`. -/
def encryptByte (b : Byte) : Byte := toUChar (encryptChar (b.val : Int))

/-- The byte that one pass of the loop of `decryptFile` leaves in place of the
byte `b`: `fgetc`, the `if` chain, `fputc`. -/
def decryptByte (b : Byte) : Byte := toUChar (decryptChar (b.val : Int))

/-- The codes of the lowercase letters. -/
abbrev IsLower (x : Int) : Prop := ord 'a' ≤ x ∧ x ≤ ord 'z'

/-- The codes of the uppercase letters. -/
abbrev IsUpper (x : Int) : Prop := ord 'A' ≤ x ∧ x ≤ ord 'Z'

/-- The codes of the decimal digits. -/
abbrev IsDigit (x : Int) : Prop := ord '0' ≤ x ∧ x ≤ ord '9'

/-- The accesses of a sweep over `n` bytes that starts at offset `k`: each byte
is read and then written, in increasing order of the offsets. -/
def sweep : Nat → Nat → List Access
  | _, 0 => []
  | k, n + 1 => Access.read k :: Access.write k :: sweep (k + 1) n

/-- A read, seek back, write loop with an arbitrary transform of the character;
`encryptLoop` and `decryptLoop` are its two instances. -/
def rwLoop (f : Int → Int) : Nat → FILE → Except Fault FILE
  | 0, _ => .error .outOfFuel
  | fuel + 1, fp =>
    let r := fgetc fp
    if r.1 = EOF then .ok r.2
    else rwLoop f fuel (fseekCur (fputc (f r.1) (fseekCur r.2 (-1))) 0)

/-- The delimiters as the specification names them: space and line end. -/
def isSep (c : Char) : Bool := c == ' ' || c == '\n'

/-- The tokens of a line as the specification describes them: the line is cut
at every space and line end, and the empty fields are discarded. -/
def specTokens (line : CStr) : List CStr :=
  (line.splitOnP isSep).filter (fun t => !t.isEmpty)

/-- The tokens still to be stored when the latest `strtok` call returned `tok`. -/
def pendingTokens : Option (CStr × CStr) → List CStr
  | none => []
  | some (t, rest) => t :: specTokens rest

/-- A bound on the number of passes of the token loop still to come. -/
def pendingFuel : Option (CStr × CStr) → Nat
  | none => 0
  | some (_, rest) => rest.length + 1

/-- The invariant of the token loop: the array has `size` cells, the count is
below the capacity, and the capacity is the initial 5 doubled some times. -/
def ArgVec.Inv (v : ArgVec) : Prop :=
  v.argv.length = v.size ∧ v.argc < v.size ∧ ∃ k, v.size = 5 * 2 ^ k

/-- The cells `argv[0]` to `argv[argc - 1]` all hold strings. -/
def StrCells (argc : Nat) (argv : List Ptr) : Prop :=
  ∀ i, i < argc → ∃ s, argv[i]? = some (Ptr.str s)

/-- The events of the external command path: the entry into
`executeSystemCommand` and the call of `system`. -/
def Event.isAdapterSide : Event → Bool
  | Event.executeSystemCommand _ => true
  | Event.system _ => true
  | _ => false

/-- The events of the file command path: the entries into the tokenizer, the
argument scan and the transform engine, and the opening of a file. -/
def Event.isTokenizerSide : Event → Bool
  | Event.tokenizeCommandLine _ => true
  | Event.handleCommandLineArguments _ => true
  | Event.encryptFile _ => true
  | Event.decryptFile _ => true
  | Event.fopen _ => true
  | _ => false

/-- The events of the transform engine: the entry into `encryptFile` or
`decryptFile`, and the opening of a file. -/
def Event.isFileAction : Event → Bool
  | Event.encryptFile _ => true
  | Event.decryptFile _ => true
  | Event.fopen _ => true
  | _ => false

/-- The four routes of the dispatcher, as the specification names them. -/
inductive Route where
  | help
  | terminate
  | fileCommand
  | genericCommand
  deriving DecidableEq, Repr

/-- The route of a line as the specification states it: the tests are made in
the order `?`, `exit`, `quit`, `secure_file`, and the first match wins. -/
def specRoute (line : CStr) : Route :=
  if line = "?\n".toList then Route.help
  else if "exit\n".toList <+: line ∨ "quit\n".toList <+: line then Route.terminate
  else if "secure_file".toList <+: line then Route.fileCommand
  else Route.genericCommand

/-- The initial values of `filename` and `action` in `handleCommandLineArguments`. -/
def Request.init : Request := { filename := none, action := Char.ofNat 0 }

/-- The trace `t1` continues the trace `t` with events that all satisfy `P`. -/
def TraceExt (P : Event → Prop) (t t1 : List Event) : Prop :=
  ∃ d, t1 = t ++ d ∧ ∀ e ∈ d, P e

/-- An event outside the external command path. -/
abbrev NotAdapter (e : Event) : Prop := e.isAdapterSide = false

/-- An event outside the file command path. -/
abbrev NotTokenizer (e : Event) : Prop := e.isTokenizerSide = false

/-! ## Concrete inputs -/

/-- The seven bytes of the text `Hi, z9!`. -/
def demoBytes : List Byte := [72, 105, 44, 32, 122, 57, 33]

/-- A file system with a single file, `notes.txt`, that holds `demoBytes`. -/
def demoFS : FS :=
  fun p => if p = "notes.txt".toList then some demoBytes else none

/-- A world with the files of `demoFS` in which nothing has happened yet. -/
def demoWorld : World := { fs := demoFS, trace := [] }

/-- An external command executor that touches no file and reports status 0. -/
def demoAdapter : Adapter := fun _ fs => (0, fs)

/-- The relation between a line and its maximal non-empty runs of
non-delimiters, in order: each run is preceded by delimiters only (back to the
start of the line or to the delimiter that ends the run before), and is
followed by a delimiter or by the end of the line. -/
inductive MaxRuns : CStr → List CStr → Prop where
  | done (ds : CStr) (hds : ∀ c ∈ ds, isSep c = true) : MaxRuns ds []
  | last (ds t : CStr) (hds : ∀ c ∈ ds, isSep c = true) (ht : t ≠ [])
      (hn : ∀ c ∈ t, ¬ isSep c = true) : MaxRuns (ds ++ t) [t]
  | next (ds t : CStr) (d : Char) (rest : CStr) (ts : List CStr)
      (hds : ∀ c ∈ ds, isSep c = true) (ht : t ≠ [])
      (hn : ∀ c ∈ t, ¬ isSep c = true) (hd : isSep d = true)
      (hrest : MaxRuns rest ts) : MaxRuns (ds ++ t ++ d :: rest) (t :: ts)

/-- The demo line of ten tokens. -/
def tenTokens : CStr := "a b c d e f g h i j\n".toList

/-! ## The program entry -/

/-- The function `readUserInput`, with standard input as the list of the lines
that the successive `fgets` calls deliver; at end of input `fgets` returns NULL
and leaves the buffer as it was.  The result is the buffer, what is left of the
input, and the world. -/
def readUserInput (stdin : List CStr) (input : CStr) (w : World) : CStr × List CStr × World :=
  let w0 := (w.emit Event.readUserInput).printf "\n$ "
  match stdin with
  | [] => (input, [], w0)
  | line :: rest => (line, rest, w0)

/-- The loop `while (1) { ... }` of `main`; `fuel` is handed to the commands,
the first numeric argument bounds the number of passes. -/
def mainLoop (sys : Adapter) (fuel : Nat) :
    Nat → List CStr → CStr → World → Except Fault World
  | 0, _, _, _ => .error .outOfFuel
  | n + 1, stdin, command, w =>
    let r := readUserInput stdin command w
    match parseAndExecuteCommand sys fuel r.1 r.2.2 with
    | .error e => .error e
    | .ok (res, w1) => if res = 0 then .ok w1 else mainLoop sys fuel n r.2.1 r.1 w1

/-- The function `main`: the exit status and the world it leaves.  `command`
is what the buffer of that name holds before the first read. -/
def main (sys : Adapter) (fuel : Nat) (argc : Nat) (argv : List Ptr) (stdin : List CStr)
    (command : CStr) (w : World) : Except Fault (Int × World) :=
  if argc > 1 then
    match handleCommandLineArguments fuel argc argv w with
    | .error e => .error e
    | .ok w1 => .ok (0, w1)
  else
    match mainLoop sys fuel fuel stdin command (intro w) with
    | .error e => .error e
    | .ok w1 => .ok (0, w1.printf "Exiting...\n")

/-! ## Further derived notions -/

/-- The argument scan of `handleCommandLineArguments` as a function of the list
of the arguments that are still to be looked at. -/
def scanList : List CStr → Request → Request
  | [], r => r
  | [a], r =>
    if a = "-e".toList then { r with action := 'e' }
    else if a = "-d".toList then { r with action := 'd' }
    else r
  | a :: b :: rest, r =>
    if a = "-f".toList then scanList rest { r with filename := some b }
    else if a = "-e".toList then scanList (b :: rest) { r with action := 'e' }
    else if a = "-d".toList then scanList (b :: rest) { r with action := 'd' }
    else scanList (b :: rest) r

/-- The elements that the scan takes as filenames, in order: each is the
element after a `-f` that the scan meets with an element after it. -/
def consumedNames : List CStr → List CStr
  | [] => []
  | [_] => []
  | a :: b :: rest =>
    if a = "-f".toList then b :: consumedNames rest else consumedNames (b :: rest)

/-- The modes named by the `-e` and `-d` that the scan meets, in order; an
element taken as a filename is skipped. -/
def modeFlags : List CStr → List Char
  | [] => []
  | [a] => if a = "-e".toList then ['e'] else if a = "-d".toList then ['d'] else []
  | a :: b :: rest =>
    if a = "-f".toList then modeFlags rest
    else if a = "-e".toList then 'e' :: modeFlags (b :: rest)
    else if a = "-d".toList then 'd' :: modeFlags (b :: rest)
    else modeFlags (b :: rest)

/-- The mode named by the last occurrence of `-e` or `-d` in a list of
arguments, as the specification words it. -/
def lastModeFlag (args : List CStr) : Option Char :=
  ((args.filter (fun a => decide (a = "-e".toList ∨ a = "-d".toList))).getLast?).map
    (fun a => if a = "-e".toList then 'e' else 'd')

/-- The white-space characters of C (`isspace` in the C locale): space, tab,
newline, vertical tab, form feed, carriage return. -/
def isSpaceChar (c : Char) : Bool :=
  c == ' ' || c == '\t' || c == '\n' || c == Char.ofNat 11 || c == Char.ofNat 12 || c == '\r'

/-- A line as `fgets` delivers it: a newline can only be its last character. -/
abbrev IsLine (line : CStr) : Prop := '\n' ∉ line.dropLast

/-- The line with the line-end marker stripped. -/
def stripLineEnd (line : CStr) : CStr :=
  if line.getLast? = some '\n' then line.dropLast else line

/-- The states of `size`, `argc` and `argv` met while the token loop runs: at
each evaluation of the loop test, and after each growth test. -/
def tokenLoopStates : Nat → Option (CStr × CStr) → ArgVec → List ArgVec
  | 0, _, v => [v]
  | _ + 1, none, v => [v]
  | fuel + 1, some (token, rest), v =>
    let v1 : ArgVec :=
      if v.argc ≥ v.size - 1 then
        { v with size := v.size * 2, argv := realloc v.argv (v.size * 2) }
      else v
    match store v1.argv v1.argc (Ptr.str (strdup token)) with
    | .error _ => [v, v1]
    | .ok a =>
      v :: v1 :: tokenLoopStates fuel (strtok rest delims)
        { v1 with argv := a, argc := v1.argc + 1 }

/-- The events that `handleCommandLineArguments` and the functions it calls
can produce. -/
def Event.isHandlerEvent : Event → Bool
  | Event.printf _ => true
  | Event.handleCommandLineArguments _ => true
  | Event.encryptFile _ => true
  | Event.decryptFile _ => true
  | Event.fopen _ => true
  | _ => false

/-- The capacity invariant of the token loop: the count is below the capacity,
the capacity is 5 doubled `k` times, and after a doubling the capacity is at
most twice the count. -/
def ArgVec.Tight (v : ArgVec) : Prop :=
  v.argc < v.size ∧ (v.size = 5 ∨ v.size ≤ 2 * v.argc) ∧ ∃ k, v.size = 5 * 2 ^ k

/-- A file system with two files: `notes.txt` holding `demoBytes`, and a file
named `-f` holding the two bytes of `ab`. -/
def dashFS : FS :=
  fun p => if p = "notes.txt".toList then some demoBytes
    else if p = "-f".toList then some [97, 98] else none

/-- A world with the files of `dashFS` in which nothing has happened yet. -/
def dashWorld : World := { fs := dashFS, trace := [] }

/-- An external command executor that touches no file and reports status -2. -/
def minusTwoAdapter : Adapter := fun _ fs => (-2, fs)

/-- The argument vector of the call `prog -f notes.txt -e`. -/
def demoArgv : List Ptr :=
  [Ptr.str "prog".toList, Ptr.str "-f".toList, Ptr.str "notes.txt".toList,
   Ptr.str "-e".toList, Ptr.null]

/-- The line `secure_file -f notes.txt -e` with its line end. -/
def demoLine : CStr := "secure_file -f notes.txt -e\n".toList

/-- The argument vector that the tokenizer builds from `demoLine`. -/
def demoVec : ArgVec :=
  { size := 5, argc := 4,
    argv := [Ptr.str "secure_file".toList, Ptr.str "-f".toList, Ptr.str "notes.txt".toList,
      Ptr.str "-e".toList, Ptr.null] }

/-- The request that the scan obtains from `demoVec`. -/
def demoRequest : Request := { filename := some "notes.txt".toList, action := 'e' }

/-- An argument vector in which `-d` stands after `-e` but directly after `-f`. -/
def flagArgs : List CStr :=
  ["secure_file".toList, "-e".toList, "-f".toList, "-d".toList]

/-- An argument vector with both mode flags and no `-f`. -/
def modeArgs : List CStr := ["prog".toList, "-d".toList, "-e".toList]

/-- The texts that `executeSystemCommand` prints for the status `status`. -/
def statusMessages (status : Int) : List String :=
  if status = -1 then ["Failed to execute system command.\n"]
  else if status ≠ 0 then
    ["System command did not execute successfully. Possible Unknown Command.\n",
     "Type \x27?\x27 to see the introduction again.\n"]
  else []

/-- An event that `handleCommandLineArguments` can produce. -/
abbrev HandlerEvent (e : Event) : Prop := e.isHandlerEvent = true

/-- The codes of the letters and digits. -/
abbrev IsAlnum (x : Int) : Prop := IsLower x ∨ IsUpper x ∨ IsDigit x

/-- A world whose single file, `marks.txt`, holds the three bytes of `, !`:
no letter and no digit. -/
def punctWorld : World :=
  { fs := fun p => if p = "marks.txt".toList then some [44, 32, 33] else none, trace := [] }

/-! # Theorems -/

set_option maxRecDepth 100000

/-! ## The file loops -/

theorem encryptLoop_eq_rwLoop (fuel : Nat) (fp : FILE) :
    encryptLoop fuel fp = rwLoop encryptChar fuel fp := by
  induction fuel generalizing fp with
  | zero => rfl
  | succ n ih => simp only [encryptLoop, rwLoop, ih]

theorem decryptLoop_eq_rwLoop (fuel : Nat) (fp : FILE) :
    decryptLoop fuel fp = rwLoop decryptChar fuel fp := by
  induction fuel generalizing fp with
  | zero => rfl
  | succ n ih => simp only [decryptLoop, rwLoop, ih]

theorem fgetc_mid (pre post : List Byte) (b : Byte) (log : List Access) :
    fgetc (FILE.mk (pre ++ b :: post) pre.length log) =
      ((b.val : Int), FILE.mk (pre ++ b :: post) (pre.length + 1)
                        (log ++ [Access.read pre.length])) := by
  have h : (pre ++ b :: post)[pre.length]? = some b := by
    rw [List.getElem?_append_right (Nat.le_refl _)]
    simp
  simp only [fgetc, h]

theorem fgetc_end (data : List Byte) (log : List Access) :
    fgetc (FILE.mk data data.length log) = (EOF, FILE.mk data data.length log) := by
  simp [fgetc]

theorem rw_step (f : Int → Int) (pre post : List Byte) (b : Byte) (log : List Access) :
    fseekCur (fputc (f (b.val : Int))
      (fseekCur (FILE.mk (pre ++ b :: post) (pre.length + 1)
                  (log ++ [Access.read pre.length])) (-1))) 0 =
      FILE.mk ((pre ++ [toUChar (f (b.val : Int))]) ++ post)
        (pre ++ [toUChar (f (b.val : Int))]).length
        (log ++ [Access.read pre.length, Access.write pre.length]) := by
  have h1 : fseekCur (FILE.mk (pre ++ b :: post) (pre.length + 1)
                  (log ++ [Access.read pre.length])) (-1) =
      FILE.mk (pre ++ b :: post) pre.length (log ++ [Access.read pre.length]) := by
    unfold fseekCur
    have : (0 : Int) ≤ ((pre.length + 1 : Nat) : Int) + -1 := by omega
    simp only [this, if_true]
    congr 1
    omega
  rw [h1]
  simp [fputc, fseekCur]

theorem rwLoop_spec (f : Int → Int) (post : List Byte) :
    ∀ (pre : List Byte) (log : List Access) (fuel : Nat), post.length < fuel →
      rwLoop f fuel (FILE.mk (pre ++ post) pre.length log) =
        .ok (FILE.mk (pre ++ post.map (fun b => toUChar (f (b.val : Int))))
              (pre ++ post).length (log ++ sweep pre.length post.length)) := by
  induction post with
  | nil =>
    intro pre log fuel h
    obtain ⟨n, rfl⟩ : ∃ n, fuel = n + 1 := ⟨fuel - 1, by simp at h; omega⟩
    simp [rwLoop, fgetc_end, sweep]
  | cons b post ih =>
    intro pre log fuel h
    obtain ⟨n, rfl⟩ : ∃ n, fuel = n + 1 := ⟨fuel - 1, by simp at h; omega⟩
    have hb : ((b.val : Int) = EOF) = False := by
      simp only [EOF, eq_iff_iff, iff_false]; omega
    simp only [rwLoop, fgetc_mid, hb, if_false, rw_step]
    rw [ih _ _ n (by simpa using h)]
    simp [sweep, List.append_assoc]

theorem sweep_eq_range (n : Nat) : ∀ k,
    sweep k n = (List.range n).flatMap (fun i => [Access.read (k + i), Access.write (k + i)]) := by
  induction n with
  | zero => intro k; simp [sweep]
  | succ n ih =>
    intro k
    rw [sweep, ih (k + 1), List.range_succ_eq_map]
    simp [List.flatMap_map, Function.comp_def, Nat.add_assoc, Nat.add_comm 1]

theorem encryptLoop_spec (b : List Byte) (fuel : Nat) (h : b.length < fuel) :
    encryptLoop fuel (FILE.mk b 0 []) =
      .ok (FILE.mk (b.map encryptByte) b.length
        ((List.range b.length).flatMap (fun i => [Access.read i, Access.write i]))) := by
  have := rwLoop_spec encryptChar b [] [] fuel h
  simp only [List.nil_append, List.length_nil, sweep_eq_range, Nat.zero_add] at this
  rw [encryptLoop_eq_rwLoop, this]
  rfl

theorem decryptLoop_spec (b : List Byte) (fuel : Nat) (h : b.length < fuel) :
    decryptLoop fuel (FILE.mk b 0 []) =
      .ok (FILE.mk (b.map decryptByte) b.length
        ((List.range b.length).flatMap (fun i => [Access.read i, Access.write i]))) := by
  have := rwLoop_spec decryptChar b [] [] fuel h
  simp only [List.nil_append, List.length_nil, sweep_eq_range, Nat.zero_add] at this
  rw [decryptLoop_eq_rwLoop, this]
  rfl

theorem encryptFile_some (fuel : Nat) (filename : CStr) (w : World) (b : List Byte)
    (hb : w.fs filename = some b) (h : b.length < fuel) :
    encryptFile fuel filename w =
      .ok (0, World.mk (w.fs.write filename (b.map encryptByte))
        (w.trace ++ [Event.encryptFile filename, Event.fopen filename])) := by
  simp only [encryptFile, World.emit, hb, encryptLoop_spec b fuel h, List.append_assoc,
    List.singleton_append]

theorem decryptFile_some (fuel : Nat) (filename : CStr) (w : World) (b : List Byte)
    (hb : w.fs filename = some b) (h : b.length < fuel) :
    decryptFile fuel filename w =
      .ok (0, World.mk (w.fs.write filename (b.map decryptByte))
        (w.trace ++ [Event.decryptFile filename, Event.fopen filename])) := by
  simp only [decryptFile, World.emit, hb, decryptLoop_spec b fuel h, List.append_assoc,
    List.singleton_append]

theorem encryptFile_none (fuel : Nat) (filename : CStr) (w : World)
    (hb : w.fs filename = none) :
    encryptFile fuel filename w =
      .ok (-1, World.mk w.fs
        (w.trace ++ [Event.encryptFile filename, Event.fopen filename,
          Event.printf ("Error opening file: " ++ String.mk filename ++ "\n"),
          Event.printf "No such file or directory.\n\n"])) := by
  simp only [encryptFile, World.emit, World.printf, hb, List.append_assoc, List.singleton_append,
    List.cons_append, List.nil_append]

theorem decryptFile_none (fuel : Nat) (filename : CStr) (w : World)
    (hb : w.fs filename = none) :
    decryptFile fuel filename w =
      .ok (-1, World.mk w.fs
        (w.trace ++ [Event.decryptFile filename, Event.fopen filename,
          Event.printf ("Error opening file: " ++ String.mk filename ++ "\n"),
          Event.printf "No such file or directory.\n\n"])) := by
  simp only [decryptFile, World.emit, World.printf, hb, List.append_assoc, List.singleton_append,
    List.cons_append, List.nil_append]

theorem decryptByte_encryptByte : ∀ b : Byte, decryptByte (encryptByte b) = b := by
  decide

theorem encryptByte_decryptByte : ∀ b : Byte, encryptByte (decryptByte b) = b := by
  decide

/-! ## `strtok` against the specification of the tokens -/

theorem mem_delims (c : Char) : decide (c ∈ delims) = isSep c := by
  simp [delims, isSep]
  by_cases h1 : c = ' ' <;> by_cases h2 : c = '\n' <;> simp [h1, h2]

theorem strtok_eq (s : CStr) :
    strtok s delims =
      if s.dropWhile isSep = [] then none
      else some ((s.dropWhile isSep).takeWhile (fun c => !isSep c),
                 (((s.dropWhile isSep).dropWhile (fun c => !isSep c))).drop 1) := by
  have h : (fun c => decide (c ∈ delims)) = isSep := funext mem_delims
  simp only [strtok, h, mem_delims]

theorem specTokens_nil : specTokens [] = [] := by
  simp [specTokens, List.splitOnP_nil]

theorem specTokens_cons_sep (c : Char) (s : CStr) (h : isSep c = true) :
    specTokens (c :: s) = specTokens s := by
  simp [specTokens, List.splitOnP_cons, h]

theorem specTokens_dropWhile (s : CStr) : specTokens (s.dropWhile isSep) = specTokens s := by
  induction s with
  | nil => rfl
  | cons c s ih =>
    by_cases h : isSep c = true
    · rw [List.dropWhile_cons_of_pos h, ih, specTokens_cons_sep c s h]
    · rw [List.dropWhile_cons_of_neg h]

theorem specTokens_run (t : CStr) (ht : t ≠ []) (hn : ∀ c ∈ t, ¬ isSep c = true) :
    specTokens t = [t] := by
  cases t with
  | nil => exact absurd rfl ht
  | cons a t =>
    unfold specTokens
    rw [List.splitOnP_eq_single isSep (a :: t) hn]
    simp

theorem specTokens_run_sep (t : CStr) (ht : t ≠ []) (hn : ∀ c ∈ t, ¬ isSep c = true)
    (d : Char) (hd : isSep d = true) (r : CStr) :
    specTokens (t ++ d :: r) = t :: specTokens r := by
  cases t with
  | nil => exact absurd rfl ht
  | cons a t =>
    unfold specTokens
    rw [List.splitOnP_first isSep (a :: t) hn d hd r]
    simp

theorem strtok_none_spec (s : CStr) (h : strtok s delims = none) : specTokens s = [] := by
  rw [strtok_eq] at h
  by_cases h0 : s.dropWhile isSep = []
  · rw [← specTokens_dropWhile, h0, specTokens_nil]
  · simp [h0] at h

theorem strtok_some_spec (s t rest : CStr) (h : strtok s delims = some (t, rest)) :
    specTokens s = t :: specTokens rest ∧ rest.length < s.length ∧
      t ≠ [] ∧ ∀ c ∈ t, ¬ isSep c = true := by
  rw [strtok_eq] at h
  by_cases h0 : s.dropWhile isSep = []
  · simp [h0] at h
  · simp only [h0, if_false, Option.some.injEq, Prod.mk.injEq] at h
    obtain ⟨ht, hr⟩ := h
    have hsplit := List.takeWhile_append_dropWhile (fun c => !isSep c) (s.dropWhile isSep)
    have hlen : (s.dropWhile isSep).length ≤ s.length :=
      (List.dropWhile_sublist isSep).length_le
    have hhead := List.head_dropWhile_not isSep s h0
    have hn : ∀ c ∈ t, ¬ isSep c = true := by
      intro c hc
      rw [← ht] at hc
      have := List.mem_takeWhile_imp hc
      simpa using this
    have htne : t ≠ [] := by
      rw [← ht]
      cases hs : s.dropWhile isSep with
      | nil => exact absurd hs h0
      | cons a l =>
        have ha : isSep a = false := by simpa [hs] using hhead
        simp [List.takeWhile_cons, ha]
    refine ⟨?_, ?_, htne, hn⟩
    · rw [← specTokens_dropWhile s]
      cases hd : (s.dropWhile isSep).dropWhile (fun c => !isSep c) with
      | nil =>
        rw [hd] at hsplit hr
        rw [ht] at hsplit
        simp only [List.append_nil] at hsplit
        simp only [List.drop_nil] at hr
        rw [← hsplit, ← hr, specTokens_nil]
        exact specTokens_run t htne hn
      | cons d r =>
        rw [hd] at hsplit hr
        rw [ht] at hsplit
        simp only [List.drop_succ_cons, List.drop_zero] at hr
        have hdsep : isSep d = true := by
          have := List.head_dropWhile_not (fun c => !isSep c) (s.dropWhile isSep)
            (by rw [hd]; simp)
          simpa [hd] using this
        rw [← hsplit, ← hr]
        exact specTokens_run_sep t htne hn d hdsep r
    · have h1 : t.length + ((s.dropWhile isSep).dropWhile (fun c => !isSep c)).length =
          (s.dropWhile isSep).length := by
        rw [← ht, ← List.length_append, hsplit]
      have h2 : 0 < t.length := List.length_pos.mpr htne
      have h3 : rest.length ≤ ((s.dropWhile isSep).dropWhile (fun c => !isSep c)).length := by
        rw [← hr, List.length_drop]; omega
      omega

theorem pendingFuel_strtok (s : CStr) : pendingFuel (strtok s delims) ≤ s.length := by
  cases h : strtok s delims with
  | none => simp [pendingFuel]
  | some p =>
    obtain ⟨t, rest⟩ := p
    have := (strtok_some_spec s t rest h).2.1
    simp only [pendingFuel]; omega

theorem pendingTokens_strtok (s : CStr) : pendingTokens (strtok s delims) = specTokens s := by
  cases h : strtok s delims with
  | none => simp [pendingTokens, strtok_none_spec s h]
  | some p =>
    obtain ⟨t, rest⟩ := p
    simp [pendingTokens, (strtok_some_spec s t rest h).1]

theorem specTokens_mem_aux (n : Nat) : ∀ s : CStr, s.length ≤ n →
    ∀ t ∈ specTokens s, t ≠ [] ∧ ∀ c ∈ t, ¬ isSep c = true := by
  induction n with
  | zero =>
    intro s hs t ht
    have : s = [] := List.length_eq_zero.mp (Nat.le_zero.mp hs)
    rw [this, specTokens_nil] at ht
    simp at ht
  | succ n ih =>
    intro s hs t ht
    cases h : strtok s delims with
    | none => rw [strtok_none_spec s h] at ht; simp at ht
    | some p =>
      obtain ⟨t0, rest⟩ := p
      obtain ⟨h1, h2, h3, h4⟩ := strtok_some_spec s t0 rest h
      rw [h1] at ht
      rcases List.mem_cons.mp ht with rfl | ht
      · exact ⟨h3, h4⟩
      · exact ih rest (by omega) t ht

theorem specTokens_mem (s : CStr) :
    ∀ t ∈ specTokens s, t ≠ [] ∧ ∀ c ∈ t, ¬ isSep c = true :=
  specTokens_mem_aux s.length s (Nat.le_refl _)

/-! ## The token loop -/

theorem realloc_length (a : List Ptr) (n : Nat) (h : a.length ≤ n) :
    (realloc a n).length = n := by
  simp [realloc]; omega

theorem realloc_take (a : List Ptr) (n k : Nat) (hk : k ≤ a.length) (h : a.length ≤ n) :
    (realloc a n).take k = a.take k := by
  unfold realloc
  rw [List.take_of_length_le h, List.take_append_of_le_length hk]

theorem take_succ_set (l : List Ptr) (i : Nat) (x : Ptr) (h : i < l.length) :
    (l.set i x).take (i + 1) = l.take i ++ [x] := by
  induction l generalizing i with
  | nil => simp at h
  | cons a l ih =>
    cases i with
    | zero => simp
    | succ i => simp [ih i (by simpa using h)]

theorem take_set_self (l : List Ptr) (i : Nat) (x : Ptr) :
    (l.set i x).take i = l.take i := by
  induction l generalizing i with
  | nil => simp
  | cons a l ih =>
    cases i with
    | zero => simp
    | succ i => simp [ih i]

theorem tokenLoop_spec : ∀ (fuel : Nat) (tok : Option (CStr × CStr)) (v : ArgVec),
    v.Inv → pendingFuel tok < fuel →
    ∃ v1, tokenLoop fuel tok v = .ok v1 ∧ v1.Inv ∧
      v1.argc = v.argc + (pendingTokens tok).length ∧
      v1.argv.take v1.argc = v.argv.take v.argc ++ (pendingTokens tok).map Ptr.str ∧
      v.size ≤ v1.size := by
  intro fuel
  induction fuel with
  | zero => intro tok v _ h; exact absurd h (Nat.not_lt_zero _)
  | succ n ih =>
    intro tok v hv hf
    cases tok with
    | none =>
      exact ⟨v, rfl, hv, by simp [pendingTokens], by simp [pendingTokens], Nat.le_refl _⟩
    | some p =>
      obtain ⟨t, rest⟩ := p
      obtain ⟨hlen, hargc, k, hk⟩ := hv
      have key : ∃ g : ArgVec,
          (if v.argc ≥ v.size - 1 then
            ({ v with size := v.size * 2, argv := realloc v.argv (v.size * 2) } : ArgVec)
           else v) = g ∧
          g.argv.length = g.size ∧ g.argc = v.argc ∧ g.argc + 1 < g.size ∧
          (∃ j, g.size = 5 * 2 ^ j) ∧ g.argv.take v.argc = v.argv.take v.argc ∧
          v.size ≤ g.size := by
        have h5 : 5 ≤ v.size := by
          rw [hk]; have := @Nat.one_le_two_pow k; omega
        by_cases hg : v.argc ≥ v.size - 1
        · refine ⟨_, rfl, ?_⟩
          rw [if_pos hg]
          refine ⟨realloc_length _ _ (by omega), rfl, ?_, ⟨k + 1, ?_⟩,
            realloc_take _ _ _ (by omega) (by omega), ?_⟩
          · show v.argc + 1 < v.size * 2
            omega
          · show v.size * 2 = 5 * 2 ^ (k + 1)
            rw [hk, Nat.pow_succ]; ring
          · show v.size ≤ v.size * 2
            omega
        · refine ⟨_, rfl, ?_⟩
          rw [if_neg hg]
          exact ⟨hlen, rfl, by omega, ⟨k, hk⟩, rfl, Nat.le_refl _⟩
      obtain ⟨g, hg, h1, h2, h3, h4, h5, h6⟩ := key
      have hst : store g.argv g.argc (Ptr.str (strdup t)) =
          .ok (g.argv.set g.argc (Ptr.str t)) := by
        have : g.argc < g.argv.length := by omega
        simp [store, strdup, this]
      have hfuel : pendingFuel (strtok rest delims) < n := by
        have := pendingFuel_strtok rest
        simp only [pendingFuel] at hf
        omega
      obtain ⟨v1, e, inv, hc, ht, hs⟩ := ih (strtok rest delims)
        { g with argv := g.argv.set g.argc (Ptr.str t), argc := g.argc + 1 }
        ⟨by simpa using h1, h3, h4⟩ hfuel
      refine ⟨v1, ?_, inv, ?_, ?_, ?_⟩
      · simp only [tokenLoop, hg, hst]
        exact e
      · rw [hc, pendingTokens_strtok]
        simp only [pendingTokens, List.length_cons, h2]
        omega
      · rw [ht, pendingTokens_strtok]
        simp only [pendingTokens, List.map_cons]
        rw [take_succ_set _ _ _ (by omega), h2, h5]
        simp
      · exact Nat.le_trans h6 hs

theorem calloc_inv : ArgVec.Inv { size := 5, argc := 0, argv := calloc 5 } := by
  refine ⟨by simp [calloc], by decide, ⟨0, by simp⟩⟩

theorem buildArgv_spec (fuel : Nat) (input : CStr) (h : input.length < fuel) :
    ∃ v, buildArgv fuel input = .ok v ∧ v.Inv ∧
      v.argc = (specTokens input).length ∧
      v.argv.take v.argc = (specTokens input).map Ptr.str ∧
      v.argv[v.argc]? = some Ptr.null := by
  have hf : pendingFuel (strtok (strdup input) delims) < fuel := by
    have := pendingFuel_strtok input
    simp only [strdup]; omega
  obtain ⟨v, e, inv, hc, ht, _⟩ :=
    tokenLoop_spec fuel (strtok (strdup input) delims) _ calloc_inv hf
  simp only [strdup, pendingTokens_strtok, Nat.zero_add, List.take_zero, List.nil_append]
    at e hc ht
  obtain ⟨hlen, hargc, k, hk⟩ := inv
  have hlt : v.argc < v.argv.length := by omega
  refine ⟨{ v with argv := v.argv.set v.argc Ptr.null }, ?_, ?_, hc, ?_, ?_⟩
  · simp only [buildArgv, strdup, e, store, hlt, if_true]
  · exact ⟨by simpa using hlen, hargc, k, hk⟩
  · simp only
    rw [take_set_self]
    exact ht
  · simp [hlt]

/-! ## String comparison -/

theorem strcmp_eq_zero (a : CStr) : ∀ b : CStr, strcmp a b = 0 ↔ a = b := by
  induction a with
  | nil => intro b; cases b <;> simp [strcmp]
  | cons x a ih =>
    intro b
    cases b with
    | nil => simp [strcmp]
    | cons y b =>
      by_cases h : x = y
      · simp [strcmp, h, ih b]
      · by_cases h2 : x < y <;> simp [strcmp, h, h2]

theorem strncmp_eq_zero (n : Nat) : ∀ a b : CStr, strncmp a b n = 0 ↔ a.take n = b.take n := by
  induction n with
  | zero => intro a b; simp [strncmp]
  | succ n ih =>
    intro a b
    cases a with
    | nil => cases b <;> simp [strncmp]
    | cons x a =>
      cases b with
      | nil => simp [strncmp]
      | cons y b =>
        by_cases h : x = y
        · simp [strncmp, h, ih a b]
        · by_cases h2 : x < y <;> simp [strncmp, h, h2]

theorem strncmp_literal (a b : CStr) : strncmp a b b.length = 0 ↔ b <+: a := by
  rw [strncmp_eq_zero, List.take_length, List.prefix_iff_eq_take]
  exact eq_comm

/-! ## The argument scan -/

theorem loadStr_of_cells (argc : Nat) (argv : List Ptr) (hc : StrCells argc argv) (i : Nat)
    (hi : i < argc) : ∃ s, loadStr argv i = .ok s := by
  obtain ⟨s, hs⟩ := hc i hi
  exact ⟨s, by simp [loadStr, hs]⟩

theorem scanArgs_total (argc : Nat) (argv : List Ptr) (hc : StrCells argc argv) :
    ∀ (m i : Nat) (r : Request), argc - i ≤ m →
      ∃ r1, ∀ fuel, m < fuel → scanArgs argc argv fuel i r = .ok r1 := by
  intro m
  induction m using Nat.strong_induction_on with
  | _ m ih =>
    intro i r hm
    by_cases hi : i < argc
    · obtain ⟨arg, harg⟩ := loadStr_of_cells argc argv hc i hi
      have hm1 : argc - (i + 1) ≤ m - 1 := by omega
      have hm0 : m - 1 < m := by omega
      by_cases hf : strcmp arg "-f".toList = 0 ∧ i + 1 < argc
      · obtain ⟨name, hname⟩ := loadStr_of_cells argc argv hc (i + 1) hf.2
        obtain ⟨r1, h1⟩ := ih (m - 1) hm0 (i + 1 + 1) { r with filename := some name } (by omega)
        refine ⟨r1, fun fuel hfu => ?_⟩
        obtain ⟨n, rfl⟩ : ∃ n, fuel = n + 1 := ⟨fuel - 1, by omega⟩
        simp only [scanArgs, hi, if_true, harg, hf, and_self, hname]
        exact h1 n (by omega)
      · by_cases he : strcmp arg "-e".toList = 0
        · obtain ⟨r1, h1⟩ := ih (m - 1) hm0 (i + 1) { r with action := 'e' } hm1
          refine ⟨r1, fun fuel hfu => ?_⟩
          obtain ⟨n, rfl⟩ : ∃ n, fuel = n + 1 := ⟨fuel - 1, by omega⟩
          simp only [scanArgs, hi, if_true, harg, hf, if_false, he]
          exact h1 n (by omega)
        · by_cases hd : strcmp arg "-d".toList = 0
          · obtain ⟨r1, h1⟩ := ih (m - 1) hm0 (i + 1) { r with action := 'd' } hm1
            refine ⟨r1, fun fuel hfu => ?_⟩
            obtain ⟨n, rfl⟩ : ∃ n, fuel = n + 1 := ⟨fuel - 1, by omega⟩
            simp only [scanArgs, hi, if_true, harg, hf, if_false, he, hd]
            exact h1 n (by omega)
          · obtain ⟨r1, h1⟩ := ih (m - 1) hm0 (i + 1) r hm1
            refine ⟨r1, fun fuel hfu => ?_⟩
            obtain ⟨n, rfl⟩ : ∃ n, fuel = n + 1 := ⟨fuel - 1, by omega⟩
            simp only [scanArgs, hi, if_true, harg, hf, if_false, he, hd]
            exact h1 n (by omega)
    · refine ⟨r, fun fuel hfu => ?_⟩
      obtain ⟨n, rfl⟩ : ∃ n, fuel = n + 1 := ⟨fuel - 1, by omega⟩
      simp only [scanArgs, hi, if_false]

/-! ## Traces of the transform engine and of the argument handler -/

theorem TraceExt.refl (P : Event → Prop) (t : List Event) : TraceExt P t t :=
  ⟨[], by simp, by simp⟩

theorem TraceExt.append (P : Event → Prop) (t t1 d : List Event) (h : TraceExt P t t1)
    (hd : ∀ e ∈ d, P e) : TraceExt P t (t1 ++ d) := by
  obtain ⟨d0, rfl, h0⟩ := h
  refine ⟨d0 ++ d, by simp, ?_⟩
  intro e he
  rcases List.mem_append.mp he with h1 | h1
  · exact h0 e h1
  · exact hd e h1

theorem TraceExt.trans (P : Event → Prop) (t t1 t2 : List Event) (h : TraceExt P t t1)
    (h2 : TraceExt P t1 t2) : TraceExt P t t2 := by
  obtain ⟨d, rfl, hd⟩ := h2
  exact TraceExt.append P t t1 d h hd

theorem encryptFile_total (filename : CStr) (w : World) :
    ∃ N, ∀ fuel, N ≤ fuel → ∃ res w1, encryptFile fuel filename w = .ok (res, w1) ∧
      TraceExt NotAdapter w.trace w1.trace := by
  cases hb : w.fs filename with
  | none =>
    refine ⟨0, fun fuel _ => ⟨_, _, encryptFile_none fuel filename w hb, ?_⟩⟩
    refine TraceExt.append _ _ _ _ (TraceExt.refl _ _) ?_
    intro e he
    simp at he
    rcases he with rfl | rfl | rfl | rfl <;> rfl
  | some b =>
    refine ⟨b.length + 1, fun fuel hf =>
      ⟨_, _, encryptFile_some fuel filename w b hb (by omega), ?_⟩⟩
    refine TraceExt.append _ _ _ _ (TraceExt.refl _ _) ?_
    intro e he
    simp at he
    rcases he with rfl | rfl <;> rfl

theorem decryptFile_total (filename : CStr) (w : World) :
    ∃ N, ∀ fuel, N ≤ fuel → ∃ res w1, decryptFile fuel filename w = .ok (res, w1) ∧
      TraceExt NotAdapter w.trace w1.trace := by
  cases hb : w.fs filename with
  | none =>
    refine ⟨0, fun fuel _ => ⟨_, _, decryptFile_none fuel filename w hb, ?_⟩⟩
    refine TraceExt.append _ _ _ _ (TraceExt.refl _ _) ?_
    intro e he
    simp at he
    rcases he with rfl | rfl | rfl | rfl <;> rfl
  | some b =>
    refine ⟨b.length + 1, fun fuel hf =>
      ⟨_, _, decryptFile_some fuel filename w b hb (by omega), ?_⟩⟩
    refine TraceExt.append _ _ _ _ (TraceExt.refl _ _) ?_
    intro e he
    simp at he
    rcases he with rfl | rfl <;> rfl

theorem printUsage_ok (argv : List Ptr) (name : CStr) (w : World)
    (h : loadStr argv 0 = .ok name) :
    printUsage argv w = .ok (World.mk w.fs (w.trace ++ [Event.printf (usageLine name)])) := by
  simp only [printUsage, h, World.printf, World.emit]

theorem handle_few (fuel argc : Nat) (argv : List Ptr) (name : CStr) (w : World)
    (h : loadStr argv 0 = .ok name) (hlt : argc < 3) :
    handleCommandLineArguments fuel argc argv w =
      .ok (World.mk w.fs (w.trace ++ [Event.handleCommandLineArguments argc,
        Event.printf (usageLine name)])) := by
  simp only [handleCommandLineArguments, hlt, if_true, printUsage_ok argv name _ h, World.emit,
    List.append_assoc, List.singleton_append]

theorem handle_missing (fuel argc : Nat) (argv : List Ptr) (name : CStr) (w : World)
    (r : Request) (h : loadStr argv 0 = .ok name) (hge : ¬ argc < 3)
    (hs : scanArgs argc argv fuel 1 Request.init = .ok r)
    (hr : r.filename = none ∨ r.action = Char.ofNat 0) :
    handleCommandLineArguments fuel argc argv w =
      .ok (World.mk w.fs (w.trace ++ [Event.handleCommandLineArguments argc,
        Event.printf "Error: Missing required arguments.\n",
        Event.printf (usageLine name)])) := by
  unfold Request.init at hs
  simp only [handleCommandLineArguments, hge, if_false, hs]
  cases hfn : r.filename with
  | none =>
    simp only [printUsage_ok argv name _ h, World.emit, World.printf,
      List.append_assoc, List.singleton_append, List.cons_append, List.nil_append]
  | some f =>
    have ha : r.action = Char.ofNat 0 := by
      rcases hr with h1 | h1
      · rw [hfn] at h1; cases h1
      · exact h1
    simp only [ha, if_true, printUsage_ok argv name _ h, World.emit, World.printf,
      List.append_assoc, List.singleton_append, List.cons_append, List.nil_append]

theorem handle_total (argc : Nat) (argv : List Ptr) (w : World) (hc : StrCells argc argv)
    (h0 : 0 < argc) :
    ∃ N, ∀ fuel, N ≤ fuel → ∃ w1, handleCommandLineArguments fuel argc argv w = .ok w1 ∧
      TraceExt NotAdapter w.trace w1.trace := by
  obtain ⟨name, hname⟩ := loadStr_of_cells argc argv hc 0 h0
  by_cases hlt : argc < 3
  · refine ⟨0, fun fuel _ => ⟨_, handle_few fuel argc argv name w hname hlt, ?_⟩⟩
    refine TraceExt.append _ _ _ _ (TraceExt.refl _ _) ?_
    intro e he
    simp at he
    rcases he with rfl | rfl <;> rfl
  · obtain ⟨r, hr⟩ := scanArgs_total argc argv hc argc 1 Request.init (by omega)
    by_cases hmiss : r.filename = none ∨ r.action = Char.ofNat 0
    · refine ⟨argc + 1, fun fuel hf =>
        ⟨_, handle_missing fuel argc argv name w r hname hlt (hr fuel (by omega)) hmiss, ?_⟩⟩
      refine TraceExt.append _ _ _ _ (TraceExt.refl _ _) ?_
      intro e he
      simp at he
      rcases he with rfl | rfl | rfl <;> rfl
    · obtain ⟨f, hf⟩ : ∃ f, r.filename = some f := by
        cases hfn : r.filename with
        | none => exact absurd (Or.inl hfn) hmiss
        | some f => exact ⟨f, rfl⟩
      have hact : ¬ r.action = Char.ofNat 0 := fun h => hmiss (Or.inr h)
      have hw0 : TraceExt NotAdapter w.trace
          (w.emit (Event.handleCommandLineArguments argc)).trace :=
        TraceExt.append _ _ _ _ (TraceExt.refl _ _)
          (by intro e he; simp at he; rcases he with rfl; rfl)
      obtain ⟨N1, hN1⟩ := encryptFile_total f (w.emit (Event.handleCommandLineArguments argc))
      obtain ⟨N2, hN2⟩ := decryptFile_total f (w.emit (Event.handleCommandLineArguments argc))
      refine ⟨argc + 1 + N1 + N2, fun fuel hfu => ?_⟩
      have hsc := hr fuel (by omega)
      unfold Request.init at hsc
      obtain ⟨res1, w1, e1, t1⟩ := hN1 fuel (by omega)
      obtain ⟨res2, w2, e2, t2⟩ := hN2 fuel (by omega)
      simp only [handleCommandLineArguments, hlt, if_false, hsc, hf, hact]
      by_cases hE : r.action = 'e'
      · simp only [hE, if_true, e1]
        by_cases hres : res1 = 0
        · refine ⟨_, by simp only [hres, if_true]; rfl, ?_⟩
          exact TraceExt.append _ _ _ _ (TraceExt.trans _ _ _ _ hw0 t1)
            (by intro e he; simp at he; rcases he with rfl; rfl)
        · exact ⟨_, by simp only [hres, if_false], TraceExt.trans _ _ _ _ hw0 t1⟩
      · by_cases hD : r.action = 'd'
        · have hde : ¬ ('d' : Char) = 'e' := by decide
          simp only [hD, hde, if_false, if_true, e2]
          by_cases hres : res2 = 0
          · refine ⟨_, by simp only [hres, if_true]; rfl, ?_⟩
            exact TraceExt.append _ _ _ _ (TraceExt.trans _ _ _ _ hw0 t2)
              (by intro e he; simp at he; rcases he with rfl; rfl)
          · exact ⟨_, by simp only [hres, if_false], TraceExt.trans _ _ _ _ hw0 t2⟩
        · simp only [hE, hD, if_false]
          exact ⟨_, rfl, hw0⟩

/-! ## The tokenizer and the dispatcher -/

theorem tokenLoop_mono : ∀ (n : Nat) (tok : Option (CStr × CStr)) (v v1 : ArgVec),
    tokenLoop n tok v = .ok v1 → ∀ m, n ≤ m → tokenLoop m tok v = .ok v1 := by
  intro n
  induction n with
  | zero => intro tok v v1 h; simp [tokenLoop] at h
  | succ n ih =>
    intro tok v v1 h m hm
    obtain ⟨k, rfl⟩ : ∃ k, m = k + 1 := ⟨m - 1, by omega⟩
    cases tok with
    | none => simpa [tokenLoop] using h
    | some p =>
      obtain ⟨t, rest⟩ := p
      simp only [tokenLoop] at h ⊢
      split at h
      · cases h
      · exact ih _ _ _ h k (by omega)

theorem buildArgv_mono (n m : Nat) (input : CStr) (v : ArgVec)
    (h : buildArgv n input = .ok v) (hm : n ≤ m) : buildArgv m input = .ok v := by
  simp only [buildArgv] at h ⊢
  split at h
  · cases h
  · rename_i v0 h0
    rw [tokenLoop_mono n _ _ v0 h0 m hm]
    exact h

theorem cells_of_take (tokens : List CStr) (argc : Nat) (argv : List Ptr)
    (hc : argc = tokens.length) (ht : argv.take argc = tokens.map Ptr.str) :
    StrCells argc argv := by
  intro i hi
  have h1 : (argv.take argc)[i]? = argv[i]? := List.getElem?_take_of_lt hi
  rw [ht] at h1
  have h2 : i < tokens.length := by omega
  refine ⟨tokens[i], ?_⟩
  rw [← h1]
  simp [h2]

theorem usage_literal :
    "Usage: secure_file -f <filename> [-e | -d] (Encrypt/Decrypt)\n" =
      usageLine "secure_file".toList := by
  decide

theorem tokenize_else (fuel : Nat) (input : CStr) (w : World) (v : ArgVec)
    (hb : buildArgv fuel input = .ok v)
    (hfirst : v.argc ≤ 1 ∨
      ∃ first, loadStr v.argv 0 = .ok first ∧ first ≠ "secure_file".toList) :
    tokenizeCommandLine fuel input w =
      .ok (World.mk w.fs (w.trace ++ [Event.tokenizeCommandLine input,
        Event.printf "Command Incomplete. Please see usage below.\n",
        Event.printf (usageLine "secure_file".toList)])) := by
  simp only [tokenizeCommandLine, hb]
  by_cases h1 : v.argc > 1
  · rcases hfirst with h | ⟨first, hl, hne⟩
    · omega
    · have : ¬ strcmp first "secure_file".toList = 0 := by
        rw [strcmp_eq_zero]; exact hne
      simp only [h1, if_true, hl, this, and_false, if_false, World.printf, World.emit,
        List.append_assoc, List.singleton_append, List.cons_append, List.nil_append,
        usage_literal]
  · simp only [h1, if_false, false_and, World.printf, World.emit,
      List.append_assoc, List.singleton_append, List.cons_append, List.nil_append,
      usage_literal]

theorem tokenize_handle (fuel : Nat) (input : CStr) (w : World) (v : ArgVec)
    (hb : buildArgv fuel input = .ok v) (h1 : v.argc > 1)
    (hl : loadStr v.argv 0 = .ok "secure_file".toList) :
    tokenizeCommandLine fuel input w =
      handleCommandLineArguments fuel v.argc v.argv
        (w.emit (Event.tokenizeCommandLine input)) := by
  have : strcmp "secure_file".toList "secure_file".toList = 0 := by
    rw [strcmp_eq_zero]
  simp only [tokenizeCommandLine, hb, h1, if_true, hl, this, and_self]

theorem tokenize_total (input : CStr) (w : World) :
    ∃ N, ∀ fuel, N ≤ fuel → ∃ w1, tokenizeCommandLine fuel input w = .ok w1 ∧
      TraceExt NotAdapter (w.emit (Event.tokenizeCommandLine input)).trace w1.trace := by
  obtain ⟨v, hb, _, hc, ht, _⟩ := buildArgv_spec (input.length + 1) input (by omega)
  have hcells := cells_of_take _ _ _ hc ht
  by_cases h1 : v.argc > 1
  · obtain ⟨first, hl⟩ := loadStr_of_cells _ _ hcells 0 (by omega)
    by_cases hf : first = "secure_file".toList
    · obtain ⟨N, hN⟩ := handle_total v.argc v.argv (w.emit (Event.tokenizeCommandLine input))
        hcells (by omega)
      refine ⟨input.length + 1 + N, fun fuel hfu => ?_⟩
      obtain ⟨w1, e1, t1⟩ := hN fuel (by omega)
      rw [hf] at hl
      refine ⟨w1, ?_, t1⟩
      rw [tokenize_handle fuel input w v (buildArgv_mono _ _ _ _ hb (by omega)) h1 hl]
      exact e1
    · refine ⟨input.length + 1, fun fuel hfu => ⟨_, tokenize_else fuel input w v
        (buildArgv_mono _ _ _ _ hb hfu) (Or.inr ⟨first, hl, hf⟩), ?_⟩⟩
      refine ⟨[Event.printf "Command Incomplete. Please see usage below.\n",
        Event.printf (usageLine "secure_file".toList)], by simp [World.emit], ?_⟩
      intro e he
      simp at he
      rcases he with rfl | rfl <;> rfl
  · refine ⟨input.length + 1, fun fuel hfu => ⟨_, tokenize_else fuel input w v
      (buildArgv_mono _ _ _ _ hb hfu) (Or.inl (by omega)), ?_⟩⟩
    refine ⟨[Event.printf "Command Incomplete. Please see usage below.\n",
      Event.printf (usageLine "secure_file".toList)], by simp [World.emit], ?_⟩
    intro e he
    simp at he
    rcases he with rfl | rfl <;> rfl

theorem parse_eq (sys : Adapter) (fuel : Nat) (input : CStr) (w : World) :
    parseAndExecuteCommand sys fuel input w =
      match specRoute input with
      | Route.help => .ok (1, intro w)
      | Route.terminate => .ok (0, w)
      | Route.fileCommand =>
        (match tokenizeCommandLine fuel input w with
         | .error e => .error e
         | .ok w1 => .ok (1, w1))
      | Route.genericCommand => .ok (1, executeSystemCommand sys input w) := by
  have h1 : strcmp input "?\n".toList = 0 ↔ input = "?\n".toList := strcmp_eq_zero _ _
  have h2 : strncmp input "exit\n".toList 5 = 0 ↔ "exit\n".toList <+: input :=
    strncmp_literal input "exit\n".toList
  have h3 : strncmp input "quit\n".toList 5 = 0 ↔ "quit\n".toList <+: input :=
    strncmp_literal input "quit\n".toList
  have h4 : strncmp input "secure_file".toList 11 = 0 ↔ "secure_file".toList <+: input :=
    strncmp_literal input "secure_file".toList
  simp only [parseAndExecuteCommand, specRoute, h1, h2, h3, h4]
  split_ifs <;> rfl

/-! ## The tokens are the maximal runs -/

theorem strtok_none_seps (s : CStr) (h : strtok s delims = none) :
    ∀ c ∈ s, isSep c = true := by
  rw [strtok_eq] at h
  by_cases h0 : s.dropWhile isSep = []
  · exact List.dropWhile_eq_nil_iff.mp h0
  · simp [h0] at h

theorem strtok_decomp (s t rest : CStr) (h : strtok s delims = some (t, rest)) :
    ∃ ds, (∀ c ∈ ds, isSep c = true) ∧
      ((s = ds ++ t ∧ rest = []) ∨ ∃ d, isSep d = true ∧ s = ds ++ t ++ d :: rest) := by
  rw [strtok_eq] at h
  by_cases h0 : s.dropWhile isSep = []
  · simp [h0] at h
  · simp only [h0, if_false, Option.some.injEq, Prod.mk.injEq] at h
    obtain ⟨ht, hr⟩ := h
    have hs := List.takeWhile_append_dropWhile isSep s
    have hsplit := List.takeWhile_append_dropWhile (fun c => !isSep c) (s.dropWhile isSep)
    refine ⟨s.takeWhile isSep, fun c hc => List.mem_takeWhile_imp hc, ?_⟩
    cases hd : (s.dropWhile isSep).dropWhile (fun c => !isSep c) with
    | nil =>
      rw [hd] at hsplit hr
      rw [ht] at hsplit
      simp only [List.append_nil] at hsplit
      simp only [List.drop_nil] at hr
      left
      exact ⟨by rw [hsplit, hs], hr.symm⟩
    | cons d r =>
      rw [hd] at hsplit hr
      rw [ht] at hsplit
      simp only [List.drop_succ_cons, List.drop_zero] at hr
      have hdsep : isSep d = true := by
        have := List.head_dropWhile_not (fun c => !isSep c) (s.dropWhile isSep)
          (by rw [hd]; simp)
        simpa [hd] using this
      right
      refine ⟨d, hdsep, ?_⟩
      rw [← hr, List.append_assoc, hsplit, hs]

theorem maxRuns_aux (n : Nat) : ∀ s : CStr, s.length ≤ n → MaxRuns s (specTokens s) := by
  induction n with
  | zero =>
    intro s hs
    have : s = [] := List.length_eq_zero.mp (Nat.le_zero.mp hs)
    rw [this, specTokens_nil]
    exact MaxRuns.done [] (by simp)
  | succ n ih =>
    intro s hs
    cases h : strtok s delims with
    | none =>
      rw [strtok_none_spec s h]
      exact MaxRuns.done s (strtok_none_seps s h)
    | some p =>
      obtain ⟨t, rest⟩ := p
      obtain ⟨h1, h2, h3, h4⟩ := strtok_some_spec s t rest h
      obtain ⟨ds, hds, hcase⟩ := strtok_decomp s t rest h
      rw [h1]
      rcases hcase with ⟨hs1, hr⟩ | ⟨d, hd, hs1⟩
      · rw [hr, specTokens_nil, hs1]
        exact MaxRuns.last ds t hds h3 h4
      · have := ih rest (by omega)
        rw [hs1]
        exact MaxRuns.next ds t d rest _ hds h3 h4 hd this

theorem maxRuns_specTokens (s : CStr) : MaxRuns s (specTokens s) :=
  maxRuns_aux s.length s (Nat.le_refl _)

theorem isSep_iff (c : Char) : isSep c = true ↔ c = ' ' ∨ c = '\n' := by
  simp [isSep]

/-! ## The adapter path -/

theorem execute_trace (sys : Adapter) (command : CStr) (w : World) :
    TraceExt NotTokenizer (w.emit (Event.executeSystemCommand command)).trace
      (executeSystemCommand sys command w).trace := by
  unfold executeSystemCommand
  simp only [printErrorMessage, World.printf, World.emit]
  split_ifs
  · exact TraceExt.append _ _ _ _ (TraceExt.refl _ _)
      (by intro e he; simp at he; rcases he with rfl; rfl)
  · exact TraceExt.append _ _ _ _ (TraceExt.append _ _ _ _ (TraceExt.refl _ _)
      (by intro e he; simp at he; rcases he with rfl; rfl))
      (by intro e he; simp at he; rcases he with rfl; rfl)
  · exact TraceExt.append _ _ _ _ (TraceExt.append _ _ _ _ (TraceExt.append _ _ _ _
      (TraceExt.refl _ _)
      (by intro e he; simp at he; rcases he with rfl; rfl))
      (by intro e he; simp at he; rcases he with rfl; rfl))
      (by intro e he; simp at he; rcases he with rfl; rfl)
  · exact TraceExt.append _ _ _ _ (TraceExt.refl _ _)
      (by intro e he; simp at he; rcases he with rfl; rfl)

theorem specTokens_seps_append (ds x : CStr) (hds : ∀ c ∈ ds, isSep c = true) :
    specTokens (ds ++ x) = specTokens x := by
  induction ds with
  | nil => rfl
  | cons d ds ih =>
    rw [List.cons_append, specTokens_cons_sep _ _ (hds d (List.mem_cons_self _ _))]
    exact ih (fun c hc => hds c (List.mem_cons_of_mem _ hc))

theorem maxRuns_unique (s : CStr) (ts : List CStr) (h : MaxRuns s ts) : ts = specTokens s := by
  induction h with
  | done ds hds =>
    have := specTokens_seps_append ds [] hds
    rw [List.append_nil, specTokens_nil] at this
    exact this.symm
  | last ds t hds ht hn =>
    rw [specTokens_seps_append ds t hds, specTokens_run t ht hn]
  | next ds t d rest ts hds ht hn hd _ ih =>
    rw [List.append_assoc, specTokens_seps_append ds _ hds,
      specTokens_run_sep t ht hn d hd rest, ih]

/-! ## The claims -/

/-- C1: for every byte sequence `b` held in an existing file, `encryptFile`
followed by `decryptFile` on that file (with fuel for the two loops) returns 0
twice and leaves the file holding exactly `b`; every path then holds what it
held before. -/
theorem C1_encrypt_then_decrypt_restores (fuel : Nat) (filename : CStr) (w : World)
    (b : List Byte) (hb : w.fs filename = some b) (hf : b.length < fuel) :
    ∃ w1 w2, encryptFile fuel filename w = .ok (0, w1) ∧
      decryptFile fuel filename w1 = .ok (0, w2) ∧
      w2.fs filename = some b ∧ ∀ p, w2.fs p = w.fs p := by
  have h1 := encryptFile_some fuel filename w b hb hf
  have hb1 : (World.mk (w.fs.write filename (b.map encryptByte))
      (w.trace ++ [Event.encryptFile filename, Event.fopen filename])).fs filename =
      some (b.map encryptByte) := by
    simp [FS.write]
  have h2 := decryptFile_some fuel filename _ (b.map encryptByte) hb1 (by simpa using hf)
  have hmap : (b.map encryptByte).map decryptByte = b := by
    rw [List.map_map]
    have : (decryptByte ∘ encryptByte) = id := funext decryptByte_encryptByte
    rw [this, List.map_id]
  refine ⟨_, _, h1, h2, ?_, ?_⟩
  · simp [FS.write, hmap]
  · intro p
    by_cases hp : p = filename
    · simp [FS.write, hp, hmap, hb]
    · simp [FS.write, hp]

/-- A concrete instance of C1: `notes.txt` in the demo world. -/
theorem C1_encrypt_then_decrypt_restores_witness :
    demoWorld.fs "notes.txt".toList = some demoBytes ∧
    demoBytes.length < 8 ∧
    ∃ w1 w2, encryptFile 8 "notes.txt".toList demoWorld = .ok (0, w1) ∧
      decryptFile 8 "notes.txt".toList w1 = .ok (0, w2) ∧
      w2.fs "notes.txt".toList = some demoBytes ∧
      ∀ p, w2.fs p = demoWorld.fs p :=
  ⟨by decide, by decide,
    C1_encrypt_then_decrypt_restores 8 "notes.txt".toList demoWorld
      demoBytes (by decide) (by decide)⟩

/-- C2: for every byte value `c`, the character transforms of `encryptFile` and
of `decryptFile` each send a lowercase letter to a lowercase letter, an
uppercase letter to an uppercase letter, a decimal digit to a decimal digit, and
return every other byte unchanged. -/
theorem C2_cipher_preserves_classes : ∀ c : Byte,
    (IsLower c.val → IsLower (encryptChar c.val) ∧ IsLower (decryptChar c.val)) ∧
    (IsUpper c.val → IsUpper (encryptChar c.val) ∧ IsUpper (decryptChar c.val)) ∧
    (IsDigit c.val → IsDigit (encryptChar c.val) ∧ IsDigit (decryptChar c.val)) ∧
    (¬ IsLower c.val → ¬ IsUpper c.val → ¬ IsDigit c.val →
      encryptChar c.val = c.val ∧ decryptChar c.val = c.val) := by
  decide

/-- C3 as stated fails: for the letter `a`, `decryptFile` computes
`ch - 'a' - SHIFT = -3` before it adds 26, so one intermediate value is negative. -/
theorem C3_intermediate_negative :
    decryptSteps (ord 'a') = [0, -3, 23, 23, 120] ∧
    ¬ (∀ c : Byte, ∀ v ∈ decryptSteps c.val, 0 ≤ v) := by
  refine ⟨by decide, ?_⟩
  intro h
  exact absurd (h 97 (-3) (by decide)) (by decide)

/-- The formulas of the two character transforms, and the signs of the
intermediate values other than the difference `ch - base - SHIFT`. -/
theorem shift_formulas_aux : ∀ c : Byte,
    (IsLower c.val → encryptChar c.val = ord 'a' + (c.val - ord 'a' + 3) % 26 ∧
        decryptChar c.val = ord 'a' + (c.val - ord 'a' - 3) % 26) ∧
    (IsUpper c.val → encryptChar c.val = ord 'A' + (c.val - ord 'A' + 3) % 26 ∧
        decryptChar c.val = ord 'A' + (c.val - ord 'A' - 3) % 26) ∧
    (IsDigit c.val → encryptChar c.val = ord '0' + (c.val - ord '0' + 3) % 10 ∧
        decryptChar c.val = ord '0' + (c.val - ord '0' - 3) % 10) ∧
    (∀ v ∈ encryptSteps c.val, 0 ≤ v) ∧
    (∀ v ∈ (decryptSteps c.val).eraseIdx 1, 0 ≤ v) := by
  decide

/-- The second value that decrypt computes is `ch - base - SHIFT`, negative
exactly on the first three symbols of each alphabet. -/
theorem decrypt_difference_aux : ∀ c : Byte,
    (IsLower c.val → (decryptSteps c.val)[1]? = some (c.val - ord 'a' - SHIFT) ∧
      (c.val ≤ ord 'c' → -3 ≤ c.val - ord 'a' - SHIFT ∧ c.val - ord 'a' - SHIFT < 0) ∧
      (ord 'c' < c.val → 0 ≤ c.val - ord 'a' - SHIFT)) ∧
    (IsUpper c.val → (decryptSteps c.val)[1]? = some (c.val - ord 'A' - SHIFT) ∧
      (c.val ≤ ord 'C' → -3 ≤ c.val - ord 'A' - SHIFT ∧ c.val - ord 'A' - SHIFT < 0) ∧
      (ord 'C' < c.val → 0 ≤ c.val - ord 'A' - SHIFT)) ∧
    (IsDigit c.val → (decryptSteps c.val)[1]? = some (c.val - ord '0' - SHIFT) ∧
      (c.val ≤ ord '2' → -3 ≤ c.val - ord '0' - SHIFT ∧ c.val - ord '0' - SHIFT < 0) ∧
      (ord '2' < c.val → 0 ≤ c.val - ord '0' - SHIFT)) := by
  decide

/-- The last value computed by either transform is the new value of `ch`, and
nothing is computed for a byte that is neither a letter nor a digit. -/
theorem steps_last_aux : ∀ c : Byte,
    (IsAlnum c.val → (encryptSteps c.val).getLast? = some (encryptChar c.val) ∧
      (decryptSteps c.val).getLast? = some (decryptChar c.val)) ∧
    (¬ IsAlnum c.val → encryptSteps c.val = [] ∧ decryptSteps c.val = []) := by
  decide

/-- C3 amended: with `SHIFT = 3`, for every lowercase letter `c` encrypt yields
`'a' + ((c - 'a' + 3) mod 26)` and decrypt yields `'a' + ((c - 'a' - 3) mod 26)`
with the non-negative residue; the same holds for uppercase letters with base
`'A'` and for digits with base `'0'` and modulus 10 (so encrypt `x` is `a`,
encrypt `7` is `0`, decrypt `b` is `y`, decrypt `2` is `9`).  No intermediate
value of encrypt is negative.  In decrypt the second value computed is the
difference `ch - base - SHIFT`: it is negative, namely -3, -2 or -1, exactly for
the first three symbols of each alphabet (`a b c`, `A B C`, `0 1 2`) and
non-negative for the others; every other intermediate value of decrypt, in
particular the left operand of every `%`, is non-negative.  The last value
computed is the new value of `ch`. -/
theorem C3_shift_formulas : ∀ c : Byte,
    (IsLower c.val → encryptChar c.val = ord 'a' + (c.val - ord 'a' + 3) % 26 ∧
        decryptChar c.val = ord 'a' + (c.val - ord 'a' - 3) % 26) ∧
    (IsUpper c.val → encryptChar c.val = ord 'A' + (c.val - ord 'A' + 3) % 26 ∧
        decryptChar c.val = ord 'A' + (c.val - ord 'A' - 3) % 26) ∧
    (IsDigit c.val → encryptChar c.val = ord '0' + (c.val - ord '0' + 3) % 10 ∧
        decryptChar c.val = ord '0' + (c.val - ord '0' - 3) % 10) ∧
    (∀ v ∈ encryptSteps c.val, 0 ≤ v) ∧
    (∀ v ∈ (decryptSteps c.val).eraseIdx 1, 0 ≤ v) ∧
    SHIFT = 3 ∧
    encryptChar (ord 'x') = ord 'a' ∧ encryptChar (ord '7') = ord '0' ∧
    decryptChar (ord 'b') = ord 'y' ∧ decryptChar (ord '2') = ord '9' ∧
    (IsLower c.val → (decryptSteps c.val)[1]? = some (c.val - ord 'a' - SHIFT) ∧
      (c.val ≤ ord 'c' → -3 ≤ c.val - ord 'a' - SHIFT ∧ c.val - ord 'a' - SHIFT < 0) ∧
      (ord 'c' < c.val → 0 ≤ c.val - ord 'a' - SHIFT)) ∧
    (IsUpper c.val → (decryptSteps c.val)[1]? = some (c.val - ord 'A' - SHIFT) ∧
      (c.val ≤ ord 'C' → -3 ≤ c.val - ord 'A' - SHIFT ∧ c.val - ord 'A' - SHIFT < 0) ∧
      (ord 'C' < c.val → 0 ≤ c.val - ord 'A' - SHIFT)) ∧
    (IsDigit c.val → (decryptSteps c.val)[1]? = some (c.val - ord '0' - SHIFT) ∧
      (c.val ≤ ord '2' → -3 ≤ c.val - ord '0' - SHIFT ∧ c.val - ord '0' - SHIFT < 0) ∧
      (ord '2' < c.val → 0 ≤ c.val - ord '0' - SHIFT)) ∧
    (decryptSteps (ord 'a'))[1]? = some (-3) ∧ (decryptSteps (ord 'b'))[1]? = some (-2) ∧
    (decryptSteps (ord 'c'))[1]? = some (-1) ∧
    (decryptSteps (ord 'A'))[1]? = some (-3) ∧ (decryptSteps (ord 'B'))[1]? = some (-2) ∧
    (decryptSteps (ord 'C'))[1]? = some (-1) ∧
    (decryptSteps (ord '0'))[1]? = some (-3) ∧ (decryptSteps (ord '1'))[1]? = some (-2) ∧
    (decryptSteps (ord '2'))[1]? = some (-1) ∧
    (IsAlnum c.val → (encryptSteps c.val).getLast? = some (encryptChar c.val) ∧
      (decryptSteps c.val).getLast? = some (decryptChar c.val)) ∧
    (¬ IsAlnum c.val → encryptSteps c.val = [] ∧ decryptSteps c.val = []) := by
  intro c
  obtain ⟨a1, a2, a3, a4, a5⟩ := shift_formulas_aux c
  obtain ⟨d1, d2, d3⟩ := decrypt_difference_aux c
  obtain ⟨l1, l2⟩ := steps_last_aux c
  exact ⟨a1, a2, a3, a4, a5, by decide, by decide, by decide, by decide, by decide,
    d1, d2, d3, by decide, by decide, by decide, by decide, by decide, by decide,
    by decide, by decide, by decide, l1, l2⟩

/-- The byte written by one pass of either loop is the value of the character
transform: the conversion to `unsigned char` changes nothing. -/
theorem byte_val_eq : ∀ c : Byte,
    ((encryptByte c).val : Int) = encryptChar c.val ∧
    ((decryptByte c).val : Int) = decryptChar c.val := by
  decide

/-- C4: for every existing file with content `b` of length `n`, `encryptFile`
(respectively `decryptFile`) returns 0 and leaves the file with length `n` and,
at every offset below `n`, the encrypted (respectively decrypted) byte of `b`;
the other paths are untouched.  The loop reads and then writes each offset once,
in increasing order, and stops with the position at `n`. -/
theorem C4_transform_in_place (fuel : Nat) (filename : CStr) (w : World) (b : List Byte)
    (hb : w.fs filename = some b) (hf : b.length < fuel) :
    (∃ w1 b1, encryptFile fuel filename w = .ok (0, w1) ∧ w1.fs filename = some b1 ∧
      b1.length = b.length ∧
      (∀ i (h : i < b.length), b1[i]? = some (encryptByte b[i]) ∧
        ((encryptByte b[i]).val : Int) = encryptChar (b[i]).val) ∧
      (∀ p, p ≠ filename → w1.fs p = w.fs p) ∧
      encryptLoop fuel (FILE.mk b 0 []) = .ok (FILE.mk b1 b.length
        ((List.range b.length).flatMap (fun i => [Access.read i, Access.write i])))) ∧
    (∃ w1 b1, decryptFile fuel filename w = .ok (0, w1) ∧ w1.fs filename = some b1 ∧
      b1.length = b.length ∧
      (∀ i (h : i < b.length), b1[i]? = some (decryptByte b[i]) ∧
        ((decryptByte b[i]).val : Int) = decryptChar (b[i]).val) ∧
      (∀ p, p ≠ filename → w1.fs p = w.fs p) ∧
      decryptLoop fuel (FILE.mk b 0 []) = .ok (FILE.mk b1 b.length
        ((List.range b.length).flatMap (fun i => [Access.read i, Access.write i])))) := by
  refine ⟨⟨_, b.map encryptByte, encryptFile_some fuel filename w b hb hf, ?_, ?_, ?_, ?_,
      encryptLoop_spec b fuel hf⟩,
    ⟨_, b.map decryptByte, decryptFile_some fuel filename w b hb hf, ?_, ?_, ?_, ?_,
      decryptLoop_spec b fuel hf⟩⟩
  · simp [FS.write]
  · simp
  · intro i h
    exact ⟨by simp [h], (byte_val_eq _).1⟩
  · intro p hp
    simp [FS.write, hp]
  · simp [FS.write]
  · simp
  · intro i h
    exact ⟨by simp [h], (byte_val_eq _).2⟩
  · intro p hp
    simp [FS.write, hp]

/-- C5: for every filename that names no existing file, `encryptFile` and
`decryptFile` return -1 whatever the fuel, no file appears under that name and
the file system is the one found. -/
theorem C5_missing_file_fails (fuel : Nat) (filename : CStr) (w : World)
    (hb : w.fs filename = none) :
    (∃ w1, encryptFile fuel filename w = .ok (-1, w1) ∧ w1.fs filename = none ∧
      w1.fs = w.fs) ∧
    (∃ w1, decryptFile fuel filename w = .ok (-1, w1) ∧ w1.fs filename = none ∧
      w1.fs = w.fs) :=
  ⟨⟨_, encryptFile_none fuel filename w hb, hb, rfl⟩,
   ⟨_, decryptFile_none fuel filename w hb, hb, rfl⟩⟩

/-- A concrete instance of C5: `absent.txt` in the demo world, with no fuel. -/
theorem C5_missing_file_fails_witness :
    demoWorld.fs "absent.txt".toList = none ∧
    (∃ w1, encryptFile 0 "absent.txt".toList demoWorld = .ok (-1, w1) ∧
      w1.fs "absent.txt".toList = none ∧ w1.fs = demoWorld.fs) ∧
    (∃ w1, decryptFile 0 "absent.txt".toList demoWorld = .ok (-1, w1) ∧
      w1.fs "absent.txt".toList = none ∧ w1.fs = demoWorld.fs) :=
  ⟨by decide, C5_missing_file_fails 0 "absent.txt".toList demoWorld (by decide)⟩

/-- A concrete instance of C4: `notes.txt` in the demo world. -/
theorem C4_transform_in_place_witness :
    demoWorld.fs "notes.txt".toList = some demoBytes ∧
    demoBytes.length < 8 ∧
    ((∃ w1 b1, encryptFile 8 "notes.txt".toList demoWorld = .ok (0, w1) ∧
      w1.fs "notes.txt".toList = some b1 ∧
      b1.length = demoBytes.length ∧
      (∀ i (h : i < demoBytes.length),
        b1[i]? = some (encryptByte demoBytes[i]) ∧
        ((encryptByte demoBytes[i]).val : Int) =
          encryptChar (demoBytes[i]).val) ∧
      (∀ p, p ≠ "notes.txt".toList → w1.fs p = demoWorld.fs p) ∧
      encryptLoop 8 (FILE.mk demoBytes 0 []) = .ok (FILE.mk b1
        demoBytes.length
        ((List.range demoBytes.length).flatMap
          (fun i => [Access.read i, Access.write i])))) ∧
    (∃ w1 b1, decryptFile 8 "notes.txt".toList demoWorld = .ok (0, w1) ∧
      w1.fs "notes.txt".toList = some b1 ∧
      b1.length = demoBytes.length ∧
      (∀ i (h : i < demoBytes.length),
        b1[i]? = some (decryptByte demoBytes[i]) ∧
        ((decryptByte demoBytes[i]).val : Int) =
          decryptChar (demoBytes[i]).val) ∧
      (∀ p, p ≠ "notes.txt".toList → w1.fs p = demoWorld.fs p) ∧
      decryptLoop 8 (FILE.mk demoBytes 0 []) = .ok (FILE.mk b1
        demoBytes.length
        ((List.range demoBytes.length).flatMap
          (fun i => [Access.read i, Access.write i]))))) :=
  ⟨by decide, by decide,
    C4_transform_in_place 8 "notes.txt".toList demoWorld demoBytes
      (by decide) (by decide)⟩

/-- C6: for every input line (and fuel above its length) the argument vector
built by `tokenizeCommandLine` holds, in order, exactly the maximal non-empty
runs of characters other than space and newline, followed by the NULL sentinel:
the runs are the fields that remain when the line is cut at every space and
newline and the empty fields are dropped; no element is empty and none holds a
space or a newline.  The line `secure_file -f notes.txt -e` yields
`secure_file`, `-f`, `notes.txt`, `-e` and the sentinel. -/
theorem C6_tokens_are_maximal_runs (fuel : Nat) (input : CStr) (hf : input.length < fuel) :
    (∃ v ts, buildArgv fuel input = .ok v ∧
      v.argc = ts.length ∧ v.argv.take (v.argc + 1) = ts.map Ptr.str ++ [Ptr.null] ∧
      MaxRuns input ts ∧ (∀ us, MaxRuns input us → us = ts) ∧
      ts = specTokens input ∧
      ∀ t ∈ ts, t ≠ [] ∧ ' ' ∉ t ∧ '\n' ∉ t) ∧
    (∃ v, buildArgv 28 "secure_file -f notes.txt -e".toList = .ok v ∧ v.argc = 4 ∧
      v.argv.take 5 = [Ptr.str "secure_file".toList, Ptr.str "-f".toList,
        Ptr.str "notes.txt".toList, Ptr.str "-e".toList, Ptr.null]) := by
  obtain ⟨v, hb, hinv, hc, ht, hnull⟩ := buildArgv_spec fuel input hf
  refine ⟨⟨v, specTokens input, hb, hc, ?_, maxRuns_specTokens input,
    fun us hus => maxRuns_unique input us hus, rfl, ?_⟩, ⟨_, rfl, by decide, by decide⟩⟩
  · rw [List.take_succ, ht, hnull]
    rfl
  · intro t htm
    obtain ⟨h1, h2⟩ := specTokens_mem input t htm
    refine ⟨h1, fun hsp => h2 ' ' hsp (by decide), fun hnl => h2 '\n' hnl (by decide)⟩

/-- A concrete instance of C6: a line with doubled and leading delimiters. -/
theorem C6_tokens_are_maximal_runs_witness :
    "  ls  -l \n".toList.length < 11 ∧
    ((∃ v ts, buildArgv 11 "  ls  -l \n".toList = .ok v ∧
      v.argc = ts.length ∧ v.argv.take (v.argc + 1) = ts.map Ptr.str ++ [Ptr.null] ∧
      MaxRuns "  ls  -l \n".toList ts ∧ (∀ us, MaxRuns "  ls  -l \n".toList us → us = ts) ∧
      ts = specTokens "  ls  -l \n".toList ∧
      ∀ t ∈ ts, t ≠ [] ∧ ' ' ∉ t ∧ '\n' ∉ t) ∧
    (∃ v, buildArgv 28 "secure_file -f notes.txt -e".toList = .ok v ∧ v.argc = 4 ∧
      v.argv.take 5 = [Ptr.str "secure_file".toList, Ptr.str "-f".toList,
        Ptr.str "notes.txt".toList, Ptr.str "-e".toList, Ptr.null])) :=
  ⟨by decide, C6_tokens_are_maximal_runs 11 "  ls  -l \n".toList (by decide)⟩

/-- C7: for every input line with `n` tokens (allocation never fails, fuel above
the length of the line) the vector holds the `n` tokens at the indices `0` to
`n - 1` in their order and NULL at index `n`, whatever the number `k` of
doublings that led to the final capacity `5 * 2 ^ k`; with 10 tokens at least
one doubling has occurred.  The line `a b c d e f g h i j` ends with capacity
20, its ten tokens and the sentinel. -/
theorem C7_growth_keeps_tokens (fuel : Nat) (input : CStr) (hf : input.length < fuel) :
    (∃ v, buildArgv fuel input = .ok v ∧
      v.argc = (specTokens input).length ∧
      (∀ i (h : i < (specTokens input).length),
        v.argv[i]? = some (Ptr.str ((specTokens input)[i]))) ∧
      v.argv[(specTokens input).length]? = some Ptr.null ∧
      ∃ k, v.size = 5 * 2 ^ k ∧ v.argv.length = v.size ∧
        ((specTokens input).length = 10 → 1 ≤ k)) ∧
    (∃ v, buildArgv 21 tenTokens = .ok v ∧ v.size = 5 * 2 ^ 2 ∧ v.argc = 10 ∧
      v.argv.take 11 = [Ptr.str ['a'], Ptr.str ['b'], Ptr.str ['c'], Ptr.str ['d'],
        Ptr.str ['e'], Ptr.str ['f'], Ptr.str ['g'], Ptr.str ['h'], Ptr.str ['i'],
        Ptr.str ['j'], Ptr.null]) := by
  obtain ⟨v, hb, ⟨hlen, hargc, k, hk⟩, hc, ht, hnull⟩ := buildArgv_spec fuel input hf
  refine ⟨⟨v, hb, hc, ?_, by rw [← hc]; exact hnull, k, hk, hlen, ?_⟩,
    ⟨_, rfl, by decide, by decide, by decide⟩⟩
  · intro i h
    have h1 : (v.argv.take v.argc)[i]? = v.argv[i]? :=
      List.getElem?_take_of_lt (by omega)
    rw [← h1, ht]
    simp [h]
  · intro h10
    cases k with
    | zero => simp at hk; omega
    | succ k => omega

/-- A concrete instance of C7: the line of ten tokens. -/
theorem C7_growth_keeps_tokens_witness :
    tenTokens.length < 21 ∧
    ((∃ v, buildArgv 21 tenTokens = .ok v ∧
      v.argc = (specTokens tenTokens).length ∧
      (∀ i (h : i < (specTokens tenTokens).length),
        v.argv[i]? = some (Ptr.str ((specTokens tenTokens)[i]))) ∧
      v.argv[(specTokens tenTokens).length]? = some Ptr.null ∧
      ∃ k, v.size = 5 * 2 ^ k ∧ v.argv.length = v.size ∧
        ((specTokens tenTokens).length = 10 → 1 ≤ k)) ∧
    (∃ v, buildArgv 21 tenTokens = .ok v ∧ v.size = 5 * 2 ^ 2 ∧ v.argc = 10 ∧
      v.argv.take 11 = [Ptr.str ['a'], Ptr.str ['b'], Ptr.str ['c'], Ptr.str ['d'],
        Ptr.str ['e'], Ptr.str ['f'], Ptr.str ['g'], Ptr.str ['h'], Ptr.str ['i'],
        Ptr.str ['j'], Ptr.null])) :=
  ⟨by decide, C7_growth_keeps_tokens 21 tenTokens (by decide)⟩

/-- C8: for every input line, with enough fuel `parseAndExecuteCommand` returns,
and it returns 0 exactly when the line begins with `exit` or `quit` followed at
once by the line end; on every other line it returns 1. -/
theorem C8_zero_iff_exit_or_quit (sys : Adapter) (input : CStr) (w : World) :
    ∃ N, ∀ fuel, N ≤ fuel → ∃ r w1, parseAndExecuteCommand sys fuel input w = .ok (r, w1) ∧
      (r = 0 ↔ ("exit\n".toList <+: input ∨ "quit\n".toList <+: input)) ∧
      (r = 0 ∨ r = 1) := by
  obtain ⟨N, hN⟩ := tokenize_total input w
  refine ⟨N, fun fuel hfu => ?_⟩
  obtain ⟨w1, e1, _⟩ := hN fuel hfu
  rw [parse_eq]
  have h10 : ¬ ((1 : Int) = 0) := by decide
  by_cases h1 : input = "?\n".toList
  · refine ⟨1, intro w, by simp only [specRoute, h1, if_true], ?_, Or.inr rfl⟩
    rw [h1]
    decide
  · by_cases h2 : "exit\n".toList <+: input ∨ "quit\n".toList <+: input
    · exact ⟨0, w, by simp only [specRoute, h1, h2, if_true, if_false],
        ⟨fun _ => h2, fun _ => rfl⟩, Or.inl rfl⟩
    · by_cases h3 : "secure_file".toList <+: input
      · exact ⟨1, w1, by simp only [specRoute, h1, h2, h3, if_true, if_false, e1],
          ⟨fun h => absurd h h10, fun h => absurd h h2⟩, Or.inr rfl⟩
      · exact ⟨1, executeSystemCommand sys input w,
          by simp only [specRoute, h1, h2, h3, if_false],
          ⟨fun h => absurd h h10, fun h => absurd h h2⟩, Or.inr rfl⟩

/-- C9: for every input line the dispatcher takes the route that the tests `?`,
`exit`, `quit`, `secure_file` select in that order.  Help prints the
introduction again and returns 1; Terminate returns 0 and does nothing else;
FileCommand enters the tokenizer with the line and returns 1; GenericCommand
enters `executeSystemCommand` with the line and returns 1.  Nothing of the
external command path happens on the first three routes, and nothing of the
tokenizer path happens on the first two and on the last. -/
theorem C9_four_routes (sys : Adapter) (input : CStr) (w : World) :
    ∃ N, ∀ fuel, N ≤ fuel → ∃ r w1 d, parseAndExecuteCommand sys fuel input w = .ok (r, w1) ∧
      w1.trace = w.trace ++ d ∧
      (specRoute input = Route.help →
        r = 1 ∧ d = Event.intro :: introLines.map Event.printf ∧ w1.fs = w.fs ∧
        ∀ e ∈ d, NotAdapter e ∧ NotTokenizer e) ∧
      (specRoute input = Route.terminate → r = 0 ∧ d = [] ∧ w1.fs = w.fs) ∧
      (specRoute input = Route.fileCommand →
        r = 1 ∧ d.head? = some (Event.tokenizeCommandLine input) ∧
        ∀ e ∈ d, NotAdapter e) ∧
      (specRoute input = Route.genericCommand →
        r = 1 ∧ d.head? = some (Event.executeSystemCommand input) ∧
        ∀ e ∈ d, NotTokenizer e) := by
  obtain ⟨N, hN⟩ := tokenize_total input w
  refine ⟨N, fun fuel hfu => ?_⟩
  obtain ⟨w1, e1, d1, ht1, hd1⟩ := hN fuel hfu
  obtain ⟨d2, ht2, hd2⟩ := execute_trace sys input w
  rw [parse_eq]
  cases hr : specRoute input with
  | help =>
    refine ⟨1, intro w, Event.intro :: introLines.map Event.printf, rfl, rfl, ?_,
      by simp, by simp, by simp⟩
    intro _
    refine ⟨rfl, rfl, rfl, ?_⟩
    decide
  | terminate =>
    exact ⟨0, w, [], rfl, by simp, by simp, by simp, by simp, by simp⟩
  | fileCommand =>
    refine ⟨1, w1, Event.tokenizeCommandLine input :: d1, by simp only [e1],
      by rw [ht1]; simp [World.emit], by simp, by simp, ?_, by simp⟩
    intro _
    refine ⟨rfl, rfl, ?_⟩
    intro e he
    rcases List.mem_cons.mp he with rfl | he
    · rfl
    · exact hd1 e he
  | genericCommand =>
    refine ⟨1, _, Event.executeSystemCommand input :: d2, rfl,
      by rw [ht2]; simp [World.emit], by simp, by simp, by simp, ?_⟩
    intro _
    refine ⟨rfl, rfl, ?_⟩
    intro e he
    rcases List.mem_cons.mp he with rfl | he
    · rfl
    · exact hd2 e he

/-- C10: for every line routed as a file command, if the argument vector built
from it has at most one element, or the argument scan leaves the filename or the
mode unset, then the dispatcher returns 1 after printing the usage line, with no
entry into `encryptFile` or `decryptFile` and no `fopen`; the file system is the
one found. -/
theorem C10_usage_without_file_action (sys : Adapter) (fuel : Nat) (input : CStr) (w : World)
    (v : ArgVec) (hroute : specRoute input = Route.fileCommand)
    (hb : buildArgv fuel input = .ok v)
    (hcond : v.argc ≤ 1 ∨ ∃ r, scanArgs v.argc v.argv fuel 1 Request.init = .ok r ∧
      (r.filename = none ∨ r.action = Char.ofNat 0)) :
    ∃ w1 d, parseAndExecuteCommand sys fuel input w = .ok (1, w1) ∧
      w1.trace = w.trace ++ d ∧
      Event.printf (usageLine "secure_file".toList) ∈ d ∧
      (∀ e ∈ d, e.isFileAction = false) ∧ w1.fs = w.fs := by
  obtain ⟨v0, hb0, _, hc, ht, _⟩ :=
    buildArgv_spec (fuel + input.length + 1) input (by omega)
  have hv : v0 = v := by
    have := buildArgv_mono fuel (fuel + input.length + 1) input v hb (by omega)
    rw [hb0] at this
    cases this
    rfl
  subst hv
  have hcells := cells_of_take _ _ _ hc ht
  rw [parse_eq, hroute]
  have hdone : ∀ d : List Event,
      tokenizeCommandLine fuel input w = .ok (World.mk w.fs (w.trace ++ d)) →
      Event.printf (usageLine "secure_file".toList) ∈ d →
      (∀ e ∈ d, e.isFileAction = false) →
      ∃ w1 d, (match tokenizeCommandLine fuel input w with
          | .error e => (.error e : Except Fault (Int × World))
          | .ok w1 => .ok (1, w1)) = .ok (1, w1) ∧
        w1.trace = w.trace ++ d ∧
        Event.printf (usageLine "secure_file".toList) ∈ d ∧
        (∀ e ∈ d, e.isFileAction = false) ∧ w1.fs = w.fs := by
    intro d he hmem hall
    exact ⟨World.mk w.fs (w.trace ++ d), d, by simp only [he], rfl, hmem, hall, rfl⟩
  by_cases h1 : v0.argc > 1
  · obtain ⟨first, hl⟩ := loadStr_of_cells _ _ hcells 0 (by omega)
    by_cases hf : first = "secure_file".toList
    · rw [hf] at hl
      have hth := tokenize_handle fuel input w v0 hb h1 hl
      by_cases hlt : v0.argc < 3
      · refine hdone [Event.tokenizeCommandLine input,
          Event.handleCommandLineArguments v0.argc,
          Event.printf (usageLine "secure_file".toList)] ?_ (by simp) ?_
        · rw [hth, handle_few fuel _ _ _ _ hl hlt]
          simp [World.emit]
        · intro e he
          simp at he
          rcases he with rfl | rfl | rfl <;> rfl
      · rcases hcond with h | ⟨r, hs, hr⟩
        · omega
        · refine hdone [Event.tokenizeCommandLine input,
            Event.handleCommandLineArguments v0.argc,
            Event.printf "Error: Missing required arguments.\n",
            Event.printf (usageLine "secure_file".toList)] ?_ (by simp) ?_
          · rw [hth, handle_missing fuel _ _ _ _ r hl hlt hs hr]
            simp [World.emit]
          · intro e he
            simp at he
            rcases he with rfl | rfl | rfl | rfl <;> rfl
    · refine hdone _ (tokenize_else fuel input w v0 hb (Or.inr ⟨first, hl, hf⟩)) (by simp) ?_
      intro e he
      simp at he
      rcases he with rfl | rfl | rfl <;> rfl
  · refine hdone _ (tokenize_else fuel input w v0 hb (Or.inl (by omega))) (by simp) ?_
    intro e he
    simp at he
    rcases he with rfl | rfl | rfl <;> rfl

/-- A concrete instance of C10: the line `secure_file` alone. -/
theorem C10_usage_without_file_action_witness :
    specRoute "secure_file\n".toList = Route.fileCommand ∧
    buildArgv 13 "secure_file\n".toList =
      .ok (ArgVec.mk 5 1 [Ptr.str "secure_file".toList, Ptr.null, Ptr.null, Ptr.null,
        Ptr.null]) ∧
    (1 : Nat) ≤ 1 ∧
    ∃ w1 d, parseAndExecuteCommand demoAdapter 13 "secure_file\n".toList demoWorld =
        .ok (1, w1) ∧
      w1.trace = demoWorld.trace ++ d ∧
      Event.printf (usageLine "secure_file".toList) ∈ d ∧
      (∀ e ∈ d, e.isFileAction = false) ∧ w1.fs = demoWorld.fs :=
  ⟨by decide, rfl, by decide,
    C10_usage_without_file_action demoAdapter 13 "secure_file\n".toList demoWorld
      (ArgVec.mk 5 1 [Ptr.str "secure_file".toList, Ptr.null, Ptr.null, Ptr.null, Ptr.null])
      (by decide) rfl (Or.inl (by decide))⟩


/-! ## The argument scan as a list function -/

theorem loadStr_of_take (args : List CStr) (argc : Nat) (argv : List Ptr)
    (hc : argc = args.length) (ht : argv.take argc = args.map Ptr.str) (i : Nat)
    (hi : i < args.length) : loadStr argv i = .ok (args[i]) := by
  have h1 : (argv.take argc)[i]? = argv[i]? := List.getElem?_take_of_lt (by omega)
  rw [ht] at h1
  have h2 : argv[i]? = some (Ptr.str (args[i])) := by
    rw [← h1]; simp [hi]
  simp only [loadStr, h2]

theorem scanArgs_eq_scanList (args : List CStr) (argc : Nat) (argv : List Ptr)
    (hc : argc = args.length) (ht : argv.take argc = args.map Ptr.str) :
    ∀ (m i : Nat) (r : Request), argc - i ≤ m →
      ∀ fuel, m < fuel → scanArgs argc argv fuel i r = .ok (scanList (args.drop i) r) := by
  intro m
  induction m using Nat.strong_induction_on with
  | _ m ih =>
    intro i r hm fuel hfu
    obtain ⟨n, rfl⟩ : ∃ n, fuel = n + 1 := ⟨fuel - 1, by omega⟩
    by_cases hi : i < argc
    · have hi2 : i < args.length := by omega
      have harg := loadStr_of_take args argc argv hc ht i hi2
      have hd : args.drop i = args[i] :: args.drop (i + 1) := List.drop_eq_getElem_cons hi2
      have hm0 : m - 1 < m := by omega
      by_cases hlast : i + 1 < argc
      · have hi3 : i + 1 < args.length := by omega
        have hname := loadStr_of_take args argc argv hc ht (i + 1) hi3
        have hd2 : args.drop (i + 1) = args[i + 1] :: args.drop (i + 1 + 1) :=
          List.drop_eq_getElem_cons hi3
        have e1 : ∀ r1, scanArgs argc argv n (i + 1) r1 =
            .ok (scanList (args[i + 1] :: args.drop (i + 1 + 1)) r1) := by
          intro r1
          rw [← hd2]
          exact ih (m - 1) hm0 (i + 1) r1 (by omega) n (by omega)
        have e2 : ∀ r1, scanArgs argc argv n (i + 1 + 1) r1 =
            .ok (scanList (args.drop (i + 1 + 1)) r1) := by
          intro r1
          exact ih (m - 1) hm0 (i + 1 + 1) r1 (by omega) n (by omega)
        rw [hd, hd2]
        simp only [scanArgs, hi, if_true, harg, strcmp_eq_zero, hlast, and_true, hname,
          scanList, e1, e2]
        split_ifs <;> rfl
      · have hnil : args.drop (i + 1) = [] := List.drop_eq_nil_of_le (by omega)
        have e1 : ∀ r1, scanArgs argc argv n (i + 1) r1 = .ok r1 := by
          intro r1
          have := ih (m - 1) hm0 (i + 1) r1 (by omega) n (by omega)
          rw [hnil] at this
          simpa [scanList] using this
        rw [hd, hnil]
        simp only [scanArgs, hi, if_true, harg, strcmp_eq_zero, hlast, and_false, if_false,
          scanList, e1]
        split_ifs <;> rfl
    · have hnil : args.drop i = [] := List.drop_eq_nil_of_le (by omega)
      rw [hnil]
      simp only [scanArgs, hi, if_false, scanList]

theorem scanList_action_aux (n : Nat) : ∀ (args : List CStr) (r : Request),
    args.length ≤ n →
    (scanList args r).action = ((modeFlags args).getLast?).getD r.action := by
  induction n with
  | zero =>
    intro args r h
    have : args = [] := List.length_eq_zero.mp (Nat.le_zero.mp h)
    subst this
    simp [scanList, modeFlags]
  | succ n ih =>
    intro args r h
    cases args with
    | nil => simp [scanList, modeFlags]
    | cons a t =>
      cases t with
      | nil =>
        simp only [scanList, modeFlags]
        split_ifs <;> simp
      | cons b rest =>
        have hl1 : (b :: rest).length ≤ n := by simpa using h
        have hl2 : rest.length ≤ n := by simp at h; omega
        simp only [scanList, modeFlags]
        split_ifs
        · rw [ih rest _ hl2]
        · rw [ih (b :: rest) _ hl1, List.getLast?_cons]
          cases (modeFlags (b :: rest)).getLast? <;> simp
        · rw [ih (b :: rest) _ hl1, List.getLast?_cons]
          cases (modeFlags (b :: rest)).getLast? <;> simp
        · rw [ih (b :: rest) _ hl1]

theorem scanList_action (args : List CStr) (r : Request) :
    (scanList args r).action = ((modeFlags args).getLast?).getD r.action :=
  scanList_action_aux args.length args r (Nat.le_refl _)

theorem scanList_filename_aux (n : Nat) : ∀ (args : List CStr) (r : Request),
    args.length ≤ n →
    (scanList args r).filename =
      ((consumedNames args).getLast?).elim r.filename some := by
  induction n with
  | zero =>
    intro args r h
    have : args = [] := List.length_eq_zero.mp (Nat.le_zero.mp h)
    subst this
    simp [scanList, consumedNames]
  | succ n ih =>
    intro args r h
    cases args with
    | nil => simp [scanList, consumedNames]
    | cons a t =>
      cases t with
      | nil =>
        simp only [scanList, consumedNames]
        split_ifs <;> simp
      | cons b rest =>
        have hl1 : (b :: rest).length ≤ n := by simpa using h
        have hl2 : rest.length ≤ n := by simp at h; omega
        simp only [scanList, consumedNames]
        split_ifs
        · rw [ih rest _ hl2, List.getLast?_cons]
          cases (consumedNames rest).getLast? <;> simp
        · rw [ih (b :: rest) _ hl1]
        · rw [ih (b :: rest) _ hl1]
        · rw [ih (b :: rest) _ hl1]

theorem scanList_filename (args : List CStr) (r : Request) :
    (scanList args r).filename =
      ((consumedNames args).getLast?).elim r.filename some :=
  scanList_filename_aux args.length args r (Nat.le_refl _)

theorem scanArgs_props (argc : Nat) (argv : List Ptr) : ∀ (fuel i : Nat) (r r1 : Request),
    1 ≤ i → scanArgs argc argv fuel i r = .ok r1 →
    (r1.action = r.action ∨ r1.action = 'e' ∨ r1.action = 'd') ∧
    (r1.filename = r.filename ∨ 3 ≤ argc) := by
  intro fuel
  induction fuel with
  | zero => intro i r r1 _ h; simp [scanArgs] at h
  | succ n ih =>
    intro i r r1 hi h
    simp only [scanArgs] at h
    by_cases hlt : i < argc
    · simp only [hlt, if_true] at h
      cases harg : loadStr argv i with
      | error e => simp [harg] at h
      | ok arg =>
        simp only [harg] at h
        by_cases hf : strcmp arg "-f".toList = 0 ∧ i + 1 < argc
        · simp only [hf, and_self, if_true] at h
          cases hname : loadStr argv (i + 1) with
          | error e => simp [hname] at h
          | ok name =>
            simp only [hname] at h
            have := ih (i + 1 + 1) _ r1 (by omega) h
            exact ⟨this.1, Or.inr (by omega)⟩
        · simp only [hf, if_false] at h
          by_cases he : strcmp arg "-e".toList = 0
          · simp only [he, if_true] at h
            have := ih (i + 1) _ r1 (by omega) h
            refine ⟨?_, this.2⟩
            rcases this.1 with h1 | h1 | h1
            · exact Or.inr (Or.inl h1)
            · exact Or.inr (Or.inl h1)
            · exact Or.inr (Or.inr h1)
          · simp only [he, if_false] at h
            by_cases hd : strcmp arg "-d".toList = 0
            · simp only [hd, if_true] at h
              have := ih (i + 1) _ r1 (by omega) h
              refine ⟨?_, this.2⟩
              rcases this.1 with h1 | h1 | h1
              · exact Or.inr (Or.inr h1)
              · exact Or.inr (Or.inl h1)
              · exact Or.inr (Or.inr h1)
            · simp only [hd, if_false] at h
              exact ih (i + 1) _ r1 (by omega) h
    · simp only [hlt, if_false, Except.ok.injEq] at h
      subst h
      exact ⟨Or.inl rfl, Or.inl rfl⟩

theorem handle_encrypt (fuel argc : Nat) (argv : List Ptr) (w : World) (r : Request) (f : CStr)
    (hge : ¬ argc < 3) (hs : scanArgs argc argv fuel 1 Request.init = .ok r)
    (hf : r.filename = some f) (ha : r.action = 'e') :
    handleCommandLineArguments fuel argc argv w =
      match encryptFile fuel f (w.emit (Event.handleCommandLineArguments argc)) with
      | .error e => .error e
      | .ok (result, w1) =>
        if result = 0 then .ok (w1.printf ("File encrypted: " ++ String.mk f ++ "\n"))
        else .ok w1 := by
  unfold Request.init at hs
  have h0 : ¬ ('e' : Char) = Char.ofNat 0 := by decide
  simp only [handleCommandLineArguments, hge, if_false, hs, hf, ha, h0, if_true]

theorem handle_decrypt (fuel argc : Nat) (argv : List Ptr) (w : World) (r : Request) (f : CStr)
    (hge : ¬ argc < 3) (hs : scanArgs argc argv fuel 1 Request.init = .ok r)
    (hf : r.filename = some f) (ha : r.action = 'd') :
    handleCommandLineArguments fuel argc argv w =
      match decryptFile fuel f (w.emit (Event.handleCommandLineArguments argc)) with
      | .error e => .error e
      | .ok (result, w1) =>
        if result = 0 then .ok (w1.printf ("File decrypted: " ++ String.mk f ++ "\n"))
        else .ok w1 := by
  unfold Request.init at hs
  have h0 : ¬ ('d' : Char) = Char.ofNat 0 := by decide
  have h1 : ¬ ('d' : Char) = 'e' := by decide
  simp only [handleCommandLineArguments, hge, if_false, hs, hf, ha, h0, h1, if_true]

theorem encryptFile_result (fuel : Nat) (f : CStr) (w : World)
    (hfuel : ∀ b, w.fs f = some b → b.length < fuel) :
    ∃ res w1, encryptFile fuel f w = .ok (res, w1) ∧
      w1.trace = w.trace ++ Event.encryptFile f :: Event.fopen f ::
        (if res = 0 then [] else
          [Event.printf ("Error opening file: " ++ String.mk f ++ "\n"),
           Event.printf "No such file or directory.\n\n"]) ∧
      (res = 0 ↔ ∃ b, w.fs f = some b) ∧
      (∀ b, w.fs f = some b → w1.fs = w.fs.write f (b.map encryptByte)) ∧
      (w.fs f = none → w1.fs = w.fs) := by
  cases hb : w.fs f with
  | none =>
    refine ⟨_, _, encryptFile_none fuel f w hb, ?_, ?_, ?_, ?_⟩
    · have : ¬ ((-1 : Int) = 0) := by decide
      simp only [this, if_false]
    · constructor
      · intro h; exact absurd h (by decide)
      · rintro ⟨b, h⟩; cases h
    · intro b h; cases h
    · intro _; rfl
  | some b =>
    refine ⟨_, _, encryptFile_some fuel f w b hb (hfuel b hb), ?_, ?_, ?_, ?_⟩
    · simp
    · exact ⟨fun _ => ⟨b, rfl⟩, fun _ => rfl⟩
    · intro b1 h
      cases h
      rfl
    · intro h; cases h

theorem decryptFile_result (fuel : Nat) (f : CStr) (w : World)
    (hfuel : ∀ b, w.fs f = some b → b.length < fuel) :
    ∃ res w1, decryptFile fuel f w = .ok (res, w1) ∧
      w1.trace = w.trace ++ Event.decryptFile f :: Event.fopen f ::
        (if res = 0 then [] else
          [Event.printf ("Error opening file: " ++ String.mk f ++ "\n"),
           Event.printf "No such file or directory.\n\n"]) ∧
      (res = 0 ↔ ∃ b, w.fs f = some b) ∧
      (∀ b, w.fs f = some b → w1.fs = w.fs.write f (b.map decryptByte)) ∧
      (w.fs f = none → w1.fs = w.fs) := by
  cases hb : w.fs f with
  | none =>
    refine ⟨_, _, decryptFile_none fuel f w hb, ?_, ?_, ?_, ?_⟩
    · have : ¬ ((-1 : Int) = 0) := by decide
      simp only [this, if_false]
    · constructor
      · intro h; exact absurd h (by decide)
      · rintro ⟨b, h⟩; cases h
    · intro b h; cases h
    · intro _; rfl
  | some b =>
    refine ⟨_, _, decryptFile_some fuel f w b hb (hfuel b hb), ?_, ?_, ?_, ?_⟩
    · simp
    · exact ⟨fun _ => ⟨b, rfl⟩, fun _ => rfl⟩
    · intro b1 h
      cases h
      rfl
    · intro h; cases h

/-! ## The claims, continued -/

/-- C11 as stated fails: the line `secure_filex -f notes.txt -e` begins with
`secure_file`, is routed as a file command, has four elements and a scan that
finds both a filename and the mode, yet the dispatcher only prints the usage
text: `argv[0]` is not equal to `secure_file`, no file is opened and
`notes.txt` keeps its bytes. -/
theorem C11_longer_first_token_not_run :
    specRoute "secure_filex -f notes.txt -e\n".toList = Route.fileCommand ∧
    "secure_file".toList <+: "secure_filex -f notes.txt -e\n".toList ∧
    (∃ v r, buildArgv 40 "secure_filex -f notes.txt -e\n".toList = .ok v ∧ 1 < v.argc ∧
      scanArgs v.argc v.argv 40 1 Request.init = .ok r ∧
      r.filename = some "notes.txt".toList ∧ r.action = 'e') ∧
    ∃ w1, parseAndExecuteCommand demoAdapter 40 "secure_filex -f notes.txt -e\n".toList
        demoWorld = .ok (1, w1) ∧
      w1.trace = [Event.tokenizeCommandLine "secure_filex -f notes.txt -e\n".toList,
        Event.printf "Command Incomplete. Please see usage below.\n",
        Event.printf "Usage: secure_file -f <filename> [-e | -d] (Encrypt/Decrypt)\n"] ∧
      w1.fs "notes.txt".toList = some demoBytes :=
  ⟨by decide, by decide, ⟨_, _, rfl, by decide, rfl, rfl, rfl⟩, ⟨_, rfl, rfl, rfl⟩⟩

/-- C11 amended: for every line routed as a file command whose argument vector
has more than one element, whose first element is exactly `secure_file`, and
from which the scan obtains a filename and a mode, the mode is `e` or `d` and
the dispatcher calls `encryptFile` on that filename for `e` and `decryptFile`
for `d` (with fuel above the length of the file, if it exists): the trace
continues with the entries into the tokenizer, the handler and the engine and
the `fopen` of that filename, an existing file is left transformed, and the
dispatcher returns 1. -/
theorem C11_file_command_invokes_engine (sys : Adapter) (fuel : Nat) (input : CStr)
    (w : World) (v : ArgVec) (r : Request) (f : CStr)
    (hroute : specRoute input = Route.fileCommand)
    (hb : buildArgv fuel input = .ok v) (h1 : 1 < v.argc)
    (hfirst : loadStr v.argv 0 = .ok "secure_file".toList)
    (hs : scanArgs v.argc v.argv fuel 1 Request.init = .ok r)
    (hf : r.filename = some f) (ha : r.action ≠ Char.ofNat 0)
    (hfuel : ∀ b, w.fs f = some b → b.length < fuel) :
    (r.action = 'e' ∨ r.action = 'd') ∧
    (r.action = 'e' → ∃ w2 d, parseAndExecuteCommand sys fuel input w = .ok (1, w2) ∧
      w2.trace = w.trace ++ [Event.tokenizeCommandLine input,
        Event.handleCommandLineArguments v.argc, Event.encryptFile f, Event.fopen f] ++ d ∧
      (∀ e ∈ d, ∃ t, e = Event.printf t) ∧
      (∀ b, w.fs f = some b → w2.fs = w.fs.write f (b.map encryptByte))) ∧
    (r.action = 'd' → ∃ w2 d, parseAndExecuteCommand sys fuel input w = .ok (1, w2) ∧
      w2.trace = w.trace ++ [Event.tokenizeCommandLine input,
        Event.handleCommandLineArguments v.argc, Event.decryptFile f, Event.fopen f] ++ d ∧
      (∀ e ∈ d, ∃ t, e = Event.printf t) ∧
      (∀ b, w.fs f = some b → w2.fs = w.fs.write f (b.map decryptByte))) := by
  have hp := scanArgs_props v.argc v.argv fuel 1 Request.init r (Nat.le_refl _) hs
  have hge : ¬ v.argc < 3 := by
    rcases hp.2 with h | h
    · rw [hf] at h; cases h
    · omega
  have hact : r.action = 'e' ∨ r.action = 'd' := by
    rcases hp.1 with h | h
    · exact absurd h ha
    · exact h
  have htok := tokenize_handle fuel input w v hb h1 hfirst
  refine ⟨hact, ?_, ?_⟩
  · intro he
    obtain ⟨res, w1, e1, t1, _, f1, _⟩ := encryptFile_result fuel f
      ((w.emit (Event.tokenizeCommandLine input)).emit
        (Event.handleCommandLineArguments v.argc)) hfuel
    have hh := handle_encrypt fuel v.argc v.argv (w.emit (Event.tokenizeCommandLine input))
      r f hge hs hf he
    rw [e1] at hh
    rw [parse_eq, hroute, htok, hh]
    by_cases hres : res = 0
    · refine ⟨w1.printf ("File encrypted: " ++ String.mk f ++ "\n"),
        [Event.printf ("File encrypted: " ++ String.mk f ++ "\n")], ?_, ?_, ?_, ?_⟩
      · simp only [hres, if_true]
      · simp only [World.printf, World.emit, t1, hres, if_true, List.append_assoc,
          List.singleton_append, List.cons_append, List.nil_append]
      · intro e hmem
        exact ⟨_, List.mem_singleton.mp hmem⟩
      · intro b hb1
        exact f1 b hb1
    · refine ⟨w1, [Event.printf ("Error opening file: " ++ String.mk f ++ "\n"),
          Event.printf "No such file or directory.\n\n"], ?_, ?_, ?_, ?_⟩
      · simp only [hres, if_false]
      · simp only [World.emit, t1, hres, if_false, List.append_assoc,
          List.singleton_append, List.cons_append, List.nil_append]
      · intro e hmem
        simp at hmem
        rcases hmem with rfl | rfl
        · exact ⟨_, rfl⟩
        · exact ⟨_, rfl⟩
      · intro b hb1
        exact f1 b hb1
  · intro he
    obtain ⟨res, w1, e1, t1, _, f1, _⟩ := decryptFile_result fuel f
      ((w.emit (Event.tokenizeCommandLine input)).emit
        (Event.handleCommandLineArguments v.argc)) hfuel
    have hh := handle_decrypt fuel v.argc v.argv (w.emit (Event.tokenizeCommandLine input))
      r f hge hs hf he
    rw [e1] at hh
    rw [parse_eq, hroute, htok, hh]
    by_cases hres : res = 0
    · refine ⟨w1.printf ("File decrypted: " ++ String.mk f ++ "\n"),
        [Event.printf ("File decrypted: " ++ String.mk f ++ "\n")], ?_, ?_, ?_, ?_⟩
      · simp only [hres, if_true]
      · simp only [World.printf, World.emit, t1, hres, if_true, List.append_assoc,
          List.singleton_append, List.cons_append, List.nil_append]
      · intro e hmem
        exact ⟨_, List.mem_singleton.mp hmem⟩
      · intro b hb1
        exact f1 b hb1
    · refine ⟨w1, [Event.printf ("Error opening file: " ++ String.mk f ++ "\n"),
          Event.printf "No such file or directory.\n\n"], ?_, ?_, ?_, ?_⟩
      · simp only [hres, if_false]
      · simp only [World.emit, t1, hres, if_false, List.append_assoc,
          List.singleton_append, List.cons_append, List.nil_append]
      · intro e hmem
        simp at hmem
        rcases hmem with rfl | rfl
        · exact ⟨_, rfl⟩
        · exact ⟨_, rfl⟩
      · intro b hb1
        exact f1 b hb1

/-- A concrete instance of C11: `secure_file -f notes.txt -e` in the demo world. -/
theorem C11_file_command_invokes_engine_witness :
    specRoute demoLine = Route.fileCommand ∧
    buildArgv 40 demoLine = .ok demoVec ∧ 1 < demoVec.argc ∧
    loadStr demoVec.argv 0 = .ok "secure_file".toList ∧
    scanArgs demoVec.argc demoVec.argv 40 1 Request.init = .ok demoRequest ∧
    demoRequest.filename = some "notes.txt".toList ∧
    demoRequest.action ≠ Char.ofNat 0 ∧
    (∀ b, demoWorld.fs "notes.txt".toList = some b → b.length < 40) ∧
    ((demoRequest.action = 'e' ∨ demoRequest.action = 'd') ∧
    (demoRequest.action = 'e' → ∃ w2 d,
      parseAndExecuteCommand demoAdapter 40 demoLine demoWorld = .ok (1, w2) ∧
      w2.trace = demoWorld.trace ++ [Event.tokenizeCommandLine demoLine,
        Event.handleCommandLineArguments demoVec.argc,
        Event.encryptFile "notes.txt".toList, Event.fopen "notes.txt".toList] ++ d ∧
      (∀ e ∈ d, ∃ t, e = Event.printf t) ∧
      (∀ b, demoWorld.fs "notes.txt".toList = some b →
        w2.fs = demoWorld.fs.write "notes.txt".toList (b.map encryptByte))) ∧
    (demoRequest.action = 'd' → ∃ w2 d,
      parseAndExecuteCommand demoAdapter 40 demoLine demoWorld = .ok (1, w2) ∧
      w2.trace = demoWorld.trace ++ [Event.tokenizeCommandLine demoLine,
        Event.handleCommandLineArguments demoVec.argc,
        Event.decryptFile "notes.txt".toList, Event.fopen "notes.txt".toList] ++ d ∧
      (∀ e ∈ d, ∃ t, e = Event.printf t) ∧
      (∀ b, demoWorld.fs "notes.txt".toList = some b →
        w2.fs = demoWorld.fs.write "notes.txt".toList (b.map decryptByte)))) :=
  have hfuel : ∀ b, demoWorld.fs "notes.txt".toList = some b → b.length < 40 := by
    intro b hb
    have h : demoWorld.fs "notes.txt".toList = some demoBytes := by decide
    rw [h] at hb
    cases hb
    decide
  ⟨by decide, rfl, by decide, rfl, rfl, rfl, by decide, hfuel,
    C11_file_command_invokes_engine demoAdapter 40 demoLine demoWorld demoVec demoRequest
      "notes.txt".toList (by decide) rfl (by decide) rfl rfl rfl (by decide) hfuel⟩

theorem modeFlags_mem (n : Nat) : ∀ args : List CStr, args.length ≤ n →
    ∀ c ∈ modeFlags args, c = 'e' ∨ c = 'd' := by
  induction n with
  | zero =>
    intro args h c hc
    have : args = [] := List.length_eq_zero.mp (Nat.le_zero.mp h)
    subst this
    simp [modeFlags] at hc
  | succ n ih =>
    intro args h c hc
    cases args with
    | nil => simp [modeFlags] at hc
    | cons a t =>
      cases t with
      | nil =>
        simp only [modeFlags] at hc
        split_ifs at hc <;> simp at hc
        · exact Or.inl hc
        · exact Or.inr hc
      | cons b rest =>
        have hl1 : (b :: rest).length ≤ n := by simpa using h
        have hl2 : rest.length ≤ n := by simp at h; omega
        simp only [modeFlags] at hc
        split_ifs at hc
        · exact ih rest hl2 c hc
        · rcases List.mem_cons.mp hc with rfl | hc
          · exact Or.inl rfl
          · exact ih _ hl1 c hc
        · rcases List.mem_cons.mp hc with rfl | hc
          · exact Or.inr rfl
          · exact ih _ hl1 c hc
        · exact ih _ hl1 c hc

theorem modeFlags_eq_filter (l : List CStr) (h : ∀ a ∈ l, a ≠ "-f".toList) :
    modeFlags l =
      (l.filter (fun a => decide (a = "-e".toList ∨ a = "-d".toList))).map
        (fun a => if a = "-e".toList then 'e' else 'd') := by
  induction l with
  | nil => rfl
  | cons a t ih =>
    have hf : ¬ a = "-f".toList := h a (List.mem_cons_self _ _)
    have iht := ih (fun x hx => h x (List.mem_cons_of_mem _ hx))
    cases t with
    | nil =>
      simp only [modeFlags]
      by_cases he : a = "-e".toList
      · simp [he]
      · by_cases hd : a = "-d".toList
        · simp [hd]
        · have he1 : ¬ a = ['-', 'e'] := he
          have hd1 : ¬ a = ['-', 'd'] := hd
          simp [he1, hd1]
    | cons b rest =>
      simp only [modeFlags, hf, if_false]
      by_cases he : a = "-e".toList
      · rw [if_pos he, iht]
        simp [he]
      · by_cases hd : a = "-d".toList
        · rw [if_neg he, if_pos hd, iht]
          simp [hd]
        · have he1 : ¬ a = ['-', 'e'] := he
          have hd1 : ¬ a = ['-', 'd'] := hd
          rw [if_neg he, if_neg hd, iht]
          simp [List.filter_cons, he1, hd1]

/-- C12 as stated fails: in the vector `secure_file -e -f -d` both `-e` and
`-d` occur and the last of them is `-d`, but the scan takes `-d` as the filename
of the `-f` before it, and the mode is `e`. -/
theorem C12_flag_after_f_is_a_filename :
    "-e".toList ∈ flagArgs ∧ "-d".toList ∈ flagArgs ∧
    lastModeFlag flagArgs = some 'd' ∧
    (∃ v, buildArgv 30 "secure_file -e -f -d\n".toList = .ok v ∧ v.argc = 4 ∧
      v.argv.take 4 = flagArgs.map Ptr.str) ∧
    scanArgs 4 (flagArgs.map Ptr.str ++ [Ptr.null]) 30 1 Request.init =
      .ok { filename := some "-d".toList, action := 'e' } :=
  ⟨by decide, by decide, by decide, ⟨_, rfl, rfl, rfl⟩, rfl⟩

/-- C12 amended: for every argument vector (of `argc` strings, scanned with
fuel above `argc`) the mode of the request is the one named by the last `-e` or
`-d` that the scan meets, where the element directly after a `-f` met by the
scan is taken as the filename and is not met; if the scan meets none, no mode is
set.  When the vector holds no `-f` after its first element and contains both
`-e` and `-d`, this is the last occurrence of `-e` or `-d` in the vector. -/
theorem C12_last_mode_flag_met_wins (args : List CStr) (argc : Nat) (argv : List Ptr)
    (fuel : Nat) (hc : argc = args.length) (ht : argv.take argc = args.map Ptr.str)
    (hfu : argc < fuel) :
    ∃ r, scanArgs argc argv fuel 1 Request.init = .ok r ∧
      r.action = ((modeFlags (args.drop 1)).getLast?).getD (Char.ofNat 0) ∧
      (r.action = Char.ofNat 0 ∨ r.action = 'e' ∨ r.action = 'd') ∧
      ((∀ a ∈ args.drop 1, a ≠ "-f".toList) →
        "-e".toList ∈ args.drop 1 → "-d".toList ∈ args.drop 1 →
        lastModeFlag (args.drop 1) = some r.action) := by
  have hs := scanArgs_eq_scanList args argc argv hc ht argc 1 Request.init (by omega) fuel hfu
  refine ⟨_, hs, ?_, ?_, ?_⟩
  · rw [scanList_action]
    rfl
  · have hp := scanArgs_props argc argv fuel 1 Request.init _ (Nat.le_refl _) hs
    exact hp.1
  · intro hnf he _
    rw [scanList_action, modeFlags_eq_filter _ hnf]
    unfold lastModeFlag
    rw [List.getLast?_map]
    have hne : (args.drop 1).filter (fun a => decide (a = "-e".toList ∨ a = "-d".toList)) ≠ [] := by
      intro hnil
      have : "-e".toList ∈ (args.drop 1).filter
          (fun a => decide (a = "-e".toList ∨ a = "-d".toList)) :=
        List.mem_filter.mpr ⟨he, by simp⟩
      rw [hnil] at this
      cases this
    cases hl : ((args.drop 1).filter
        (fun a => decide (a = "-e".toList ∨ a = "-d".toList))).getLast? with
    | none => exact absurd (List.getLast?_eq_none_iff.mp hl) hne
    | some x => simp

/-- A concrete instance of C12: the vector `prog -d -e`. -/
theorem C12_last_mode_flag_met_wins_witness :
    3 = modeArgs.length ∧
    (modeArgs.map Ptr.str ++ [Ptr.null]).take 3 = modeArgs.map Ptr.str ∧
    3 < 4 ∧
    ∃ r, scanArgs 3 (modeArgs.map Ptr.str ++ [Ptr.null]) 4 1 Request.init = .ok r ∧
      r.action = ((modeFlags (modeArgs.drop 1)).getLast?).getD (Char.ofNat 0) ∧
      (r.action = Char.ofNat 0 ∨ r.action = 'e' ∨ r.action = 'd') ∧
      ((∀ a ∈ modeArgs.drop 1, a ≠ "-f".toList) →
        "-e".toList ∈ modeArgs.drop 1 → "-d".toList ∈ modeArgs.drop 1 →
        lastModeFlag (modeArgs.drop 1) = some r.action) :=
  ⟨by decide, by decide, by decide,
    C12_last_mode_flag_met_wins modeArgs 3 (modeArgs.map Ptr.str ++ [Ptr.null]) 4
      (by decide) (by decide) (by decide)⟩

theorem scanArgs_consume (argc : Nat) (argv : List Ptr) (fuel i : Nat) (r : Request)
    (name : CStr) (hlt : i + 1 < argc) (hi : loadStr argv i = .ok "-f".toList)
    (hn : loadStr argv (i + 1) = .ok name) :
    scanArgs argc argv (fuel + 1) i r =
      scanArgs argc argv fuel (i + 2) { r with filename := some name } := by
  have h1 : i < argc := by omega
  have h2 : strcmp "-f".toList "-f".toList = 0 := by rw [strcmp_eq_zero]
  simp only [scanArgs, h1, if_true, hi, h2, hlt, and_self, hn]

theorem scanArgs_last_f (argc : Nat) (argv : List Ptr) (fuel i : Nat) (r : Request)
    (hlast : i + 1 = argc) (hi : loadStr argv i = .ok "-f".toList) :
    scanArgs argc argv (fuel + 2) i r = .ok r := by
  have h1 : i < argc := by omega
  have h2 : ¬ i + 1 < argc := by omega
  have h3 : ¬ strcmp "-f".toList "-e".toList = 0 := by decide
  have h4 : ¬ strcmp "-f".toList "-d".toList = 0 := by decide
  simp only [scanArgs, h1, if_true, hi, h2, and_false, if_false, h3, h4]

/-- C19: in the argument scan, a `-f` met at an index that is not the last takes
the next element as the filename whatever that element is, and the scan goes on
two indices further with the mode as it was; a `-f` met at the last index
changes nothing; the filename of the request is the last element so taken and
the mode is the last one named by a `-e` or `-d` that was not so taken.  Hence
`secure_file -f -e` is a usage error with no file action, and
`secure_file -f -f -e` encrypts the file named `-f`. -/
theorem C19_f_consumes_next_element :
    (∀ (argc : Nat) (argv : List Ptr) (fuel i : Nat) (r : Request) (name : CStr),
      i + 1 < argc → loadStr argv i = .ok "-f".toList → loadStr argv (i + 1) = .ok name →
      scanArgs argc argv (fuel + 1) i r =
        scanArgs argc argv fuel (i + 2) { filename := some name, action := r.action }) ∧
    (∀ (argc : Nat) (argv : List Ptr) (fuel i : Nat) (r : Request),
      i + 1 = argc → loadStr argv i = .ok "-f".toList →
      scanArgs argc argv (fuel + 2) i r = .ok r) ∧
    (∀ (args : List CStr) (argc : Nat) (argv : List Ptr) (fuel : Nat),
      argc = args.length → argv.take argc = args.map Ptr.str → argc < fuel →
      ∃ r, scanArgs argc argv fuel 1 Request.init = .ok r ∧
        r.filename = (consumedNames (args.drop 1)).getLast? ∧
        r.action = ((modeFlags (args.drop 1)).getLast?).getD (Char.ofNat 0)) ∧
    (∀ (name : CStr) (rest : List CStr),
      consumedNames ("-f".toList :: name :: rest) = name :: consumedNames rest ∧
      modeFlags ("-f".toList :: name :: rest) = modeFlags rest) ∧
    consumedNames ["-f".toList] = [] ∧
    (∃ w1, parseAndExecuteCommand demoAdapter 30 "secure_file -f -e\n".toList dashWorld =
        .ok (1, w1) ∧
      w1.trace = [Event.tokenizeCommandLine "secure_file -f -e\n".toList,
        Event.handleCommandLineArguments 3,
        Event.printf "Error: Missing required arguments.\n",
        Event.printf "Usage: secure_file -f <filename> [-e | -d] (Encrypt/Decrypt)\n"] ∧
      w1.fs "-f".toList = some [97, 98] ∧ w1.fs "-e".toList = none) ∧
    (∃ w1, parseAndExecuteCommand demoAdapter 30 "secure_file -f -f -e\n".toList dashWorld =
        .ok (1, w1) ∧
      w1.trace = [Event.tokenizeCommandLine "secure_file -f -f -e\n".toList,
        Event.handleCommandLineArguments 4,
        Event.encryptFile "-f".toList, Event.fopen "-f".toList,
        Event.printf "File encrypted: -f\n"] ∧
      w1.fs "-f".toList = some [100, 101]) := by
  refine ⟨fun argc argv fuel i r name h1 h2 h3 => scanArgs_consume argc argv fuel i r name h1 h2 h3,
    fun argc argv fuel i r h1 h2 => scanArgs_last_f argc argv fuel i r h1 h2, ?_, ?_, rfl,
    ⟨_, rfl, rfl, rfl, rfl⟩, ⟨_, rfl, rfl, rfl⟩⟩
  · intro args argc argv fuel hc ht hfu
    have hs := scanArgs_eq_scanList args argc argv hc ht argc 1 Request.init (by omega) fuel hfu
    refine ⟨_, hs, ?_, ?_⟩
    · rw [scanList_filename]
      cases (consumedNames (args.drop 1)).getLast? <;> rfl
    · rw [scanList_action]
      rfl
  · intro name rest
    exact ⟨by simp [consumedNames], by simp [modeFlags]⟩

/-! ## The external command path -/

theorem strchr_take (c : Char) : ∀ s : CStr,
    (match strchr s c with
      | some k => s.take k
      | none => s) = s.takeWhile (fun x => !decide (x = c)) := by
  intro s
  induction s with
  | nil => simp [strchr]
  | cons a s ih =>
    by_cases h : a = c
    · simp [strchr, h]
    · simp only [strchr, h, if_false]
      cases hs : strchr s c with
      | none =>
        rw [hs] at ih
        simp only [Option.map_none']
        rw [List.takeWhile_cons_of_pos (by simp [h]), ← ih]
      | some k =>
        rw [hs] at ih
        simp only [Option.map_some', List.take_succ_cons]
        rw [List.takeWhile_cons_of_pos (by simp [h]), ← ih]

theorem takeWhile_of_not_mem (c : Char) (s : CStr) (h : c ∉ s) :
    s.takeWhile (fun x => !decide (x = c)) = s := by
  induction s with
  | nil => rfl
  | cons a s ih =>
    have ha : ¬ a = c := fun e => h (e ▸ List.mem_cons_self _ _)
    rw [List.takeWhile_cons_of_pos (by simp [ha]), ih (fun hm => h (List.mem_cons_of_mem _ hm))]

theorem strip_eq_takeWhile (line : CStr) (h : IsLine line) :
    line.takeWhile (fun x => !decide (x = '\n')) = stripLineEnd line := by
  unfold IsLine at h
  unfold stripLineEnd
  rcases List.eq_nil_or_concat line with rfl | ⟨l, a, rfl⟩
  · rfl
  · rw [List.concat_eq_append] at h ⊢
    rw [List.dropLast_concat] at h
    rw [List.getLast?_concat, List.dropLast_concat, List.takeWhile_append,
      takeWhile_of_not_mem '\n' l h]
    simp only [if_true]
    by_cases ha : a = '\n'
    · simp [ha]
    · simp [ha]

theorem strspn_eq_strlen (s accept : CStr) :
    strspn s accept = strlen s ↔ ∀ c ∈ s, c ∈ accept := by
  unfold strspn strlen
  constructor
  · intro h
    have hp : s.takeWhile (fun c => decide (c ∈ accept)) = s :=
      (List.takeWhile_prefix _).eq_of_length h
    intro c hc
    rw [← hp] at hc
    simpa using List.mem_takeWhile_imp hc
  · intro h
    have : s.takeWhile (fun c => decide (c ∈ accept)) = s :=
      List.takeWhile_eq_self_iff.mpr (fun c hc => by simpa using h c hc)
    rw [this]

theorem blank_test (s : CStr) :
    (strlen s = 0 ∨ strspn s " \t".toList = strlen s) ↔ ∀ c ∈ s, c = ' ' ∨ c = '\t' := by
  rw [strspn_eq_strlen]
  constructor
  · rintro (h | h)
    · have : s = [] := List.length_eq_zero.mp h
      subst this
      simp
    · intro c hc
      have := h c hc
      simpa using this
  · intro h
    right
    intro c hc
    rcases h c hc with rfl | rfl <;> decide

theorem execute_eq (sys : Adapter) (input : CStr) (w : World) (hl : IsLine input) :
    executeSystemCommand sys input w =
      if ∀ c ∈ stripLineEnd input, c = ' ' ∨ c = '\t' then
        World.mk w.fs (w.trace ++ [Event.executeSystemCommand input,
          Event.printf
            "Unknown command, unable to execute. Type \x27?\x27 to see the introduction.\n"])
      else
        World.mk (sys (stripLineEnd input) w.fs).2
          (w.trace ++ [Event.executeSystemCommand input, Event.system (stripLineEnd input)] ++
            (statusMessages (sys (stripLineEnd input) w.fs).1).map Event.printf) := by
  have hs := strchr_take '\n' input
  rw [strip_eq_takeWhile input hl] at hs
  unfold executeSystemCommand
  simp only [strdup, hs, blank_test]
  by_cases hb : ∀ c ∈ stripLineEnd input, c = ' ' ∨ c = '\t'
  · rw [if_pos hb, if_pos hb]
    simp only [World.printf, World.emit, List.append_assoc, List.singleton_append]
  · rw [if_neg hb, if_neg hb]
    simp only [World.emit, statusMessages, printErrorMessage, World.printf]
    split_ifs <;> simp

/-- C13 as stated fails: the line made of a carriage return and the line end is
routed as a generic command and, stripped, is all white space, yet the adapter
is called with the carriage return and no `unknown command` text is printed:
the test of the source accepts spaces and tabs only. -/
theorem C13_carriage_return_reaches_adapter :
    specRoute "\r\n".toList = Route.genericCommand ∧ IsLine "\r\n".toList ∧
    stripLineEnd "\r\n".toList = ['\r'] ∧
    (∀ c ∈ stripLineEnd "\r\n".toList, isSpaceChar c = true) ∧
    ∃ w1, parseAndExecuteCommand demoAdapter 0 "\r\n".toList demoWorld = .ok (1, w1) ∧
      w1.trace = [Event.executeSystemCommand "\r\n".toList, Event.system ['\r']] :=
  ⟨by decide, by decide, by decide, by decide, ⟨_, rfl, rfl⟩⟩

/-- C13 amended: for every line routed as a generic command (a line as `fgets`
delivers it, whatever the fuel), let `s` be the line with the line-end marker
stripped: if `s` is empty or made of spaces and tabs only, the `unknown command`
text is printed and the adapter is not called; otherwise the adapter is called
exactly once, with exactly `s`, and what follows in the trace is printed text. -/
theorem C13_generic_command_forwarding (sys : Adapter) (fuel : Nat) (input : CStr) (w : World)
    (hroute : specRoute input = Route.genericCommand) (hline : IsLine input) :
    ((stripLineEnd input = [] ∨ ∀ c ∈ stripLineEnd input, c = ' ' ∨ c = '\t') →
      parseAndExecuteCommand sys fuel input w =
        .ok (1, World.mk w.fs (w.trace ++ [Event.executeSystemCommand input,
          Event.printf
            "Unknown command, unable to execute. Type \x27?\x27 to see the introduction.\n"]))) ∧
    (¬ (stripLineEnd input = [] ∨ ∀ c ∈ stripLineEnd input, c = ' ' ∨ c = '\t') →
      ∃ texts : List String, parseAndExecuteCommand sys fuel input w =
        .ok (1, World.mk (sys (stripLineEnd input) w.fs).2
          (w.trace ++ [Event.executeSystemCommand input, Event.system (stripLineEnd input)] ++
            texts.map Event.printf))) := by
  rw [parse_eq, hroute]
  simp only [execute_eq sys input w hline]
  constructor
  · intro h
    have hb : ∀ c ∈ stripLineEnd input, c = ' ' ∨ c = '\t' := by
      rcases h with h | h
      · rw [h]; intro c hc; cases hc
      · exact h
    rw [if_pos hb]
  · intro h
    have hb : ¬ ∀ c ∈ stripLineEnd input, c = ' ' ∨ c = '\t' := fun hb => h (Or.inr hb)
    rw [if_neg hb]
    exact ⟨_, rfl⟩

/-- A concrete instance of C13: the line `ls -l`. -/
theorem C13_generic_command_forwarding_witness :
    specRoute "ls -l\n".toList = Route.genericCommand ∧ IsLine "ls -l\n".toList ∧
    (((stripLineEnd "ls -l\n".toList = [] ∨
        ∀ c ∈ stripLineEnd "ls -l\n".toList, c = ' ' ∨ c = '\t') →
      parseAndExecuteCommand demoAdapter 0 "ls -l\n".toList demoWorld =
        .ok (1, World.mk demoWorld.fs (demoWorld.trace ++
          [Event.executeSystemCommand "ls -l\n".toList,
          Event.printf
            "Unknown command, unable to execute. Type \x27?\x27 to see the introduction.\n"]))) ∧
    (¬ (stripLineEnd "ls -l\n".toList = [] ∨
        ∀ c ∈ stripLineEnd "ls -l\n".toList, c = ' ' ∨ c = '\t') →
      ∃ texts : List String, parseAndExecuteCommand demoAdapter 0 "ls -l\n".toList demoWorld =
        .ok (1, World.mk (demoAdapter (stripLineEnd "ls -l\n".toList) demoWorld.fs).2
          (demoWorld.trace ++ [Event.executeSystemCommand "ls -l\n".toList,
            Event.system (stripLineEnd "ls -l\n".toList)] ++
            texts.map Event.printf)))) :=
  ⟨by decide, by decide,
    C13_generic_command_forwarding demoAdapter 0 "ls -l\n".toList demoWorld
      (by decide) (by decide)⟩

/-- C14 as stated fails: with an adapter that returns the negative status -2,
the line `foo` gets the `did not execute successfully` text and not the
`failed to execute` text: the source compares the status with -1 only. -/
theorem C14_negative_status_other_than_minus_one :
    (minusTwoAdapter "foo".toList demoWorld.fs).1 = -2 ∧ (-2 : Int) < 0 ∧
    ∃ w1, parseAndExecuteCommand minusTwoAdapter 0 "foo\n".toList demoWorld = .ok (1, w1) ∧
      w1.trace = [Event.executeSystemCommand "foo\n".toList, Event.system "foo".toList,
        Event.printf
          "System command did not execute successfully. Possible Unknown Command.\n",
        Event.printf "Type \x27?\x27 to see the introduction again.\n"] ∧
      Event.printf "Failed to execute system command.\n" ∉ w1.trace :=
  ⟨rfl, by decide, ⟨_, rfl, rfl, by decide⟩⟩

/-- C14 amended: for every status value that the adapter returns for a generic
command that reaches it: the status -1 yields the `failed to execute` text and
nothing else, every other nonzero status (negative ones too) yields the two
lines of the `did not execute successfully` text, which differ from the first,
and the status 0 yields no printed text; in all three cases the dispatcher
returns 1. -/
theorem C14_status_messages (sys : Adapter) (fuel : Nat) (input : CStr) (w : World)
    (hroute : specRoute input = Route.genericCommand) (hline : IsLine input)
    (hrun : ¬ ∀ c ∈ stripLineEnd input, c = ' ' ∨ c = '\t') :
    ∃ texts : List String, parseAndExecuteCommand sys fuel input w =
        .ok (1, World.mk (sys (stripLineEnd input) w.fs).2
          (w.trace ++ [Event.executeSystemCommand input, Event.system (stripLineEnd input)] ++
            texts.map Event.printf)) ∧
      ((sys (stripLineEnd input) w.fs).1 = -1 →
        texts = ["Failed to execute system command.\n"]) ∧
      ((sys (stripLineEnd input) w.fs).1 ≠ -1 → (sys (stripLineEnd input) w.fs).1 ≠ 0 →
        texts = ["System command did not execute successfully. Possible Unknown Command.\n",
          "Type \x27?\x27 to see the introduction again.\n"]) ∧
      ((sys (stripLineEnd input) w.fs).1 = 0 → texts = []) ∧
      "Failed to execute system command.\n" ≠
        "System command did not execute successfully. Possible Unknown Command.\n" := by
  refine ⟨statusMessages (sys (stripLineEnd input) w.fs).1, ?_, ?_, ?_, ?_, by decide⟩
  · rw [parse_eq, hroute]
    simp only [execute_eq sys input w hline]
    rw [if_neg hrun]
  · intro h
    simp only [statusMessages, h, if_true]
  · intro h1 h2
    simp only [statusMessages, h1, h2, if_false, ne_eq, not_false_eq_true, if_true]
  · intro h
    have : ¬ ((0 : Int) = -1) := by decide
    simp only [statusMessages, h, this, if_false, ne_eq, not_true_eq_false]

/-- A concrete instance of C14: the line `foo` with the adapter that returns -2. -/
theorem C14_status_messages_witness :
    specRoute "foo\n".toList = Route.genericCommand ∧ IsLine "foo\n".toList ∧
    (¬ ∀ c ∈ stripLineEnd "foo\n".toList, c = ' ' ∨ c = '\t') ∧
    ∃ texts : List String, parseAndExecuteCommand minusTwoAdapter 0 "foo\n".toList demoWorld =
        .ok (1, World.mk (minusTwoAdapter (stripLineEnd "foo\n".toList) demoWorld.fs).2
          (demoWorld.trace ++ [Event.executeSystemCommand "foo\n".toList,
            Event.system (stripLineEnd "foo\n".toList)] ++ texts.map Event.printf)) ∧
      ((minusTwoAdapter (stripLineEnd "foo\n".toList) demoWorld.fs).1 = -1 →
        texts = ["Failed to execute system command.\n"]) ∧
      ((minusTwoAdapter (stripLineEnd "foo\n".toList) demoWorld.fs).1 ≠ -1 →
        (minusTwoAdapter (stripLineEnd "foo\n".toList) demoWorld.fs).1 ≠ 0 →
        texts = ["System command did not execute successfully. Possible Unknown Command.\n",
          "Type \x27?\x27 to see the introduction again.\n"]) ∧
      ((minusTwoAdapter (stripLineEnd "foo\n".toList) demoWorld.fs).1 = 0 → texts = []) ∧
      "Failed to execute system command.\n" ≠
        "System command did not execute successfully. Possible Unknown Command.\n" :=
  ⟨by decide, by decide, by decide,
    C14_status_messages minusTwoAdapter 0 "foo\n".toList demoWorld
      (by decide) (by decide) (by decide)⟩

/-! ## Startup-argument mode -/

theorem encryptFile_handler (filename : CStr) (w : World) :
    ∃ N, ∀ fuel, N ≤ fuel → ∃ res w1, encryptFile fuel filename w = .ok (res, w1) ∧
      TraceExt HandlerEvent w.trace w1.trace := by
  cases hb : w.fs filename with
  | none =>
    refine ⟨0, fun fuel _ => ⟨_, _, encryptFile_none fuel filename w hb, ?_⟩⟩
    refine TraceExt.append _ _ _ _ (TraceExt.refl _ _) ?_
    intro e he
    simp at he
    rcases he with rfl | rfl | rfl | rfl <;> rfl
  | some b =>
    refine ⟨b.length + 1, fun fuel hf =>
      ⟨_, _, encryptFile_some fuel filename w b hb (by omega), ?_⟩⟩
    refine TraceExt.append _ _ _ _ (TraceExt.refl _ _) ?_
    intro e he
    simp at he
    rcases he with rfl | rfl <;> rfl

theorem decryptFile_handler (filename : CStr) (w : World) :
    ∃ N, ∀ fuel, N ≤ fuel → ∃ res w1, decryptFile fuel filename w = .ok (res, w1) ∧
      TraceExt HandlerEvent w.trace w1.trace := by
  cases hb : w.fs filename with
  | none =>
    refine ⟨0, fun fuel _ => ⟨_, _, decryptFile_none fuel filename w hb, ?_⟩⟩
    refine TraceExt.append _ _ _ _ (TraceExt.refl _ _) ?_
    intro e he
    simp at he
    rcases he with rfl | rfl | rfl | rfl <;> rfl
  | some b =>
    refine ⟨b.length + 1, fun fuel hf =>
      ⟨_, _, decryptFile_some fuel filename w b hb (by omega), ?_⟩⟩
    refine TraceExt.append _ _ _ _ (TraceExt.refl _ _) ?_
    intro e he
    simp at he
    rcases he with rfl | rfl <;> rfl

theorem handle_total_handler (argc : Nat) (argv : List Ptr) (w : World)
    (hc : StrCells argc argv) (h0 : 0 < argc) :
    ∃ N, ∀ fuel, N ≤ fuel → ∃ w1, handleCommandLineArguments fuel argc argv w = .ok w1 ∧
      TraceExt HandlerEvent w.trace w1.trace := by
  obtain ⟨name, hname⟩ := loadStr_of_cells argc argv hc 0 h0
  by_cases hlt : argc < 3
  · refine ⟨0, fun fuel _ => ⟨_, handle_few fuel argc argv name w hname hlt, ?_⟩⟩
    refine TraceExt.append _ _ _ _ (TraceExt.refl _ _) ?_
    intro e he
    simp at he
    rcases he with rfl | rfl <;> rfl
  · obtain ⟨r, hr⟩ := scanArgs_total argc argv hc argc 1 Request.init (by omega)
    by_cases hmiss : r.filename = none ∨ r.action = Char.ofNat 0
    · refine ⟨argc + 1, fun fuel hf =>
        ⟨_, handle_missing fuel argc argv name w r hname hlt (hr fuel (by omega)) hmiss, ?_⟩⟩
      refine TraceExt.append _ _ _ _ (TraceExt.refl _ _) ?_
      intro e he
      simp at he
      rcases he with rfl | rfl | rfl <;> rfl
    · obtain ⟨f, hf⟩ : ∃ f, r.filename = some f := by
        cases hfn : r.filename with
        | none => exact absurd (Or.inl hfn) hmiss
        | some f => exact ⟨f, rfl⟩
      have hact : ¬ r.action = Char.ofNat 0 := fun h => hmiss (Or.inr h)
      have hw0 : TraceExt HandlerEvent w.trace
          (w.emit (Event.handleCommandLineArguments argc)).trace :=
        TraceExt.append _ _ _ _ (TraceExt.refl _ _)
          (by intro e he; simp at he; rcases he with rfl; rfl)
      obtain ⟨N1, hN1⟩ := encryptFile_handler f (w.emit (Event.handleCommandLineArguments argc))
      obtain ⟨N2, hN2⟩ := decryptFile_handler f (w.emit (Event.handleCommandLineArguments argc))
      refine ⟨argc + 1 + N1 + N2, fun fuel hfu => ?_⟩
      have hsc := hr fuel (by omega)
      obtain ⟨res1, w1, e1, t1⟩ := hN1 fuel (by omega)
      obtain ⟨res2, w2, e2, t2⟩ := hN2 fuel (by omega)
      have hp := (scanArgs_props argc argv fuel 1 Request.init r (Nat.le_refl _) hsc).1
      rcases hp with hp | hE | hD
      · exact absurd hp hact
      · rw [handle_encrypt fuel argc argv w r f hlt hsc hf hE, e1]
        by_cases hres : res1 = 0
        · refine ⟨_, by simp only [hres, if_true]; rfl, ?_⟩
          exact TraceExt.append _ _ _ _ (TraceExt.trans _ _ _ _ hw0 t1)
            (by intro e he; simp at he; rcases he with rfl; rfl)
        · exact ⟨_, by simp only [hres, if_false], TraceExt.trans _ _ _ _ hw0 t1⟩
      · rw [handle_decrypt fuel argc argv w r f hlt hsc hf hD, e2]
        by_cases hres : res2 = 0
        · refine ⟨_, by simp only [hres, if_true]; rfl, ?_⟩
          exact TraceExt.append _ _ _ _ (TraceExt.trans _ _ _ _ hw0 t2)
            (by intro e he; simp at he; rcases he with rfl; rfl)
        · exact ⟨_, by simp only [hres, if_false], TraceExt.trans _ _ _ _ hw0 t2⟩

/-- C15: in startup-argument mode (more than one element in a well-formed
`argv`), with enough fuel `main` returns the exit status 0 for every argument
vector, and what happens is made of events of `handleCommandLineArguments`
only: the introduction is not printed and no input is read.  The status is 0
alike when arguments are missing, when the file cannot be opened, and when the
transform succeeds. -/
theorem C15_startup_mode_exits_zero (sys : Adapter) (argc : Nat) (argv : List Ptr)
    (stdin : List CStr) (command : CStr) (w : World)
    (h1 : 1 < argc) (hc : StrCells argc argv) :
    (∃ N, ∀ fuel, N ≤ fuel → ∃ w1 d,
      main sys fuel argc argv stdin command w = .ok (0, w1) ∧
      w1.trace = w.trace ++ d ∧ (∀ e ∈ d, HandlerEvent e) ∧
      Event.readUserInput ∉ d ∧ Event.intro ∉ d) ∧
    (∃ w1, main sys 10 2 [Ptr.str "prog".toList, Ptr.str "-e".toList, Ptr.null]
      stdin command demoWorld = .ok (0, w1) ∧ w1.fs = demoWorld.fs) ∧
    (∃ w1, main sys 10 4 [Ptr.str "prog".toList, Ptr.str "-f".toList,
        Ptr.str "absent.txt".toList, Ptr.str "-e".toList, Ptr.null]
      stdin command demoWorld = .ok (0, w1) ∧ w1.fs = demoWorld.fs) ∧
    (∃ w1, main sys 10 4 demoArgv stdin command demoWorld = .ok (0, w1) ∧
      w1.fs "notes.txt".toList = some (demoBytes.map encryptByte)) := by
  refine ⟨?_, ⟨_, rfl, rfl⟩, ⟨_, rfl, rfl⟩, ⟨_, rfl, by decide⟩⟩
  obtain ⟨N, hN⟩ := handle_total_handler argc argv w hc (by omega)
  refine ⟨N, fun fuel hfu => ?_⟩
  obtain ⟨w1, e1, d, hd, hall⟩ := hN fuel hfu
  refine ⟨w1, d, ?_, hd, hall, ?_, ?_⟩
  · simp only [main, h1, if_true, e1]
  · intro hm
    exact absurd (hall _ hm) (by decide)
  · intro hm
    exact absurd (hall _ hm) (by decide)

/-- A concrete instance of C15: the call `prog -f notes.txt -e`. -/
theorem C15_startup_mode_exits_zero_witness :
    1 < 4 ∧ StrCells 4 demoArgv ∧
    ((∃ N, ∀ fuel, N ≤ fuel → ∃ w1 d,
      main demoAdapter fuel 4 demoArgv [] [] demoWorld = .ok (0, w1) ∧
      w1.trace = demoWorld.trace ++ d ∧ (∀ e ∈ d, HandlerEvent e) ∧
      Event.readUserInput ∉ d ∧ Event.intro ∉ d) ∧
    (∃ w1, main demoAdapter 10 2 [Ptr.str "prog".toList, Ptr.str "-e".toList, Ptr.null]
      [] [] demoWorld = .ok (0, w1) ∧ w1.fs = demoWorld.fs) ∧
    (∃ w1, main demoAdapter 10 4 [Ptr.str "prog".toList, Ptr.str "-f".toList,
        Ptr.str "absent.txt".toList, Ptr.str "-e".toList, Ptr.null]
      [] [] demoWorld = .ok (0, w1) ∧ w1.fs = demoWorld.fs) ∧
    (∃ w1, main demoAdapter 10 4 demoArgv [] [] demoWorld = .ok (0, w1) ∧
      w1.fs "notes.txt".toList = some (demoBytes.map encryptByte))) :=
  have hc : StrCells 4 demoArgv := by
    intro i hi
    have : i = 0 ∨ i = 1 ∨ i = 2 ∨ i = 3 := by omega
    rcases this with rfl | rfl | rfl | rfl <;> exact ⟨_, rfl⟩
  ⟨by decide, hc, C15_startup_mode_exits_zero demoAdapter 4 demoArgv [] [] demoWorld
    (by decide) hc⟩

/-! ## Bounds of the token loop -/

theorem grow_inv (v : ArgVec) (hv : v.Inv) :
    ArgVec.Inv (if v.argc ≥ v.size - 1 then
        ({ v with size := v.size * 2, argv := realloc v.argv (v.size * 2) } : ArgVec)
      else v) ∧
    (if v.argc ≥ v.size - 1 then
        ({ v with size := v.size * 2, argv := realloc v.argv (v.size * 2) } : ArgVec)
      else v).argc + 1 <
    (if v.argc ≥ v.size - 1 then
        ({ v with size := v.size * 2, argv := realloc v.argv (v.size * 2) } : ArgVec)
      else v).size := by
  obtain ⟨hlen, hargc, k, hk⟩ := hv
  have h5 : 5 ≤ v.size := by
    rw [hk]; have := @Nat.one_le_two_pow k; omega
  by_cases hg : v.argc ≥ v.size - 1
  · rw [if_pos hg]
    refine ⟨⟨realloc_length _ _ (by omega), ?_, ⟨k + 1, ?_⟩⟩, ?_⟩
    · show v.argc < v.size * 2
      omega
    · show v.size * 2 = 5 * 2 ^ (k + 1)
      rw [hk, Nat.pow_succ]; ring
    · show v.argc + 1 < v.size * 2
      omega
  · rw [if_neg hg]
    exact ⟨⟨hlen, hargc, k, hk⟩, by omega⟩

theorem tokenLoopStates_inv : ∀ (fuel : Nat) (tok : Option (CStr × CStr)) (v : ArgVec),
    v.Inv → ∀ s ∈ tokenLoopStates fuel tok v, s.Inv := by
  intro fuel
  induction fuel with
  | zero =>
    intro tok v hv s hs
    simp only [tokenLoopStates, List.mem_singleton] at hs
    rw [hs]; exact hv
  | succ n ih =>
    intro tok v hv s hs
    cases tok with
    | none =>
      simp only [tokenLoopStates, List.mem_singleton] at hs
      rw [hs]; exact hv
    | some p =>
      obtain ⟨t, rest⟩ := p
      obtain ⟨hg, hlt⟩ := grow_inv v hv
      simp only [tokenLoopStates] at hs
      generalize hgen : (if v.argc ≥ v.size - 1 then
        ({ v with size := v.size * 2, argv := realloc v.argv (v.size * 2) } : ArgVec)
        else v) = g at hs hg hlt
      have hst : store g.argv g.argc (Ptr.str (strdup t)) =
          .ok (g.argv.set g.argc (Ptr.str (strdup t))) := by
        have : g.argc < g.argv.length := by have := hg.1; omega
        simp [store, this]
      rw [hst] at hs
      simp only [List.mem_cons] at hs
      rcases hs with rfl | rfl | hs
      · exact hv
      · exact hg
      · refine ih _ _ ?_ s hs
        obtain ⟨h1, _, h3⟩ := hg
        exact ⟨by simpa using h1, hlt, h3⟩

theorem tokenLoop_sound : ∀ (fuel : Nat) (tok : Option (CStr × CStr)) (v : ArgVec),
    v.Inv → tokenLoop fuel tok v ≠ .error .outOfBounds ∧
      ∀ v1, tokenLoop fuel tok v = .ok v1 →
        v1.Inv ∧ (tokenLoopStates fuel tok v).getLast? = some v1 := by
  intro fuel
  induction fuel with
  | zero =>
    intro tok v hv
    simp [tokenLoop]
  | succ n ih =>
    intro tok v hv
    cases tok with
    | none =>
      simp only [tokenLoop, tokenLoopStates]
      refine ⟨by simp, ?_⟩
      intro v1 h
      cases h
      exact ⟨hv, rfl⟩
    | some p =>
      obtain ⟨t, rest⟩ := p
      obtain ⟨hg, hlt⟩ := grow_inv v hv
      simp only [tokenLoop, tokenLoopStates]
      generalize hgen : (if v.argc ≥ v.size - 1 then
        ({ v with size := v.size * 2, argv := realloc v.argv (v.size * 2) } : ArgVec)
        else v) = g at hg hlt
      have hst : store g.argv g.argc (Ptr.str (strdup t)) =
          .ok (g.argv.set g.argc (Ptr.str (strdup t))) := by
        have : g.argc < g.argv.length := by have := hg.1; omega
        simp [store, this]
      rw [hst]
      simp only
      have hnext : ArgVec.Inv
          (ArgVec.mk g.size (g.argc + 1) (g.argv.set g.argc (Ptr.str (strdup t)))) := by
        obtain ⟨h1, _, h3⟩ := hg
        exact ⟨by simpa using h1, hlt, h3⟩
      obtain ⟨i1, i2⟩ := ih (strtok rest delims) _ hnext
      refine ⟨i1, ?_⟩
      intro v1 h
      obtain ⟨j1, j2⟩ := i2 v1 h
      refine ⟨j1, ?_⟩
      rw [List.getLast?_cons_cons, List.getLast?_cons, j2]
      rfl

/-- C16: whatever the fuel and the line, every state of `size`, `argc` and
`argv` met during tokenization has `argc` at most `size - 1` (so at most
`size`) and an array of `size` cells; no write of the loop and no write of the
sentinel is out of bounds; the result of the loop is the last state met; a
finished vector has `argc` below the length of its array, NULL at index `argc`
and the tokens in the cells before it; and with fuel above the length of the
line the vector is finished. -/
theorem C16_count_below_capacity (fuel : Nat) (input : CStr) :
    (∀ s ∈ tokenLoopStates fuel (strtok (strdup input) delims)
        { size := 5, argc := 0, argv := calloc 5 },
      s.argc ≤ s.size - 1 ∧ s.argc ≤ s.size ∧ s.argv.length = s.size) ∧
    (∀ v1, tokenLoop fuel (strtok (strdup input) delims)
        { size := 5, argc := 0, argv := calloc 5 } = .ok v1 →
      (tokenLoopStates fuel (strtok (strdup input) delims)
        { size := 5, argc := 0, argv := calloc 5 }).getLast? = some v1) ∧
    buildArgv fuel input ≠ .error .outOfBounds ∧
    (∀ v, buildArgv fuel input = .ok v →
      v.argc ≤ v.size - 1 ∧ v.argv.length = v.size ∧ v.argc < v.argv.length ∧
      v.argv[v.argc]? = some Ptr.null ∧
      v.argv.take v.argc = (specTokens input).map Ptr.str) ∧
    (input.length < fuel → ∃ v, buildArgv fuel input = .ok v) := by
  obtain ⟨hno, hok⟩ := tokenLoop_sound fuel (strtok (strdup input) delims) _ calloc_inv
  refine ⟨?_, fun v1 h => (hok v1 h).2, ?_, ?_, ?_⟩
  · intro s hs
    obtain ⟨h1, h2, _⟩ := tokenLoopStates_inv fuel _ _ calloc_inv s hs
    exact ⟨by omega, by omega, h1⟩
  · simp only [buildArgv]
    cases hl : tokenLoop fuel (strtok (strdup input) delims)
        { size := 5, argc := 0, argv := calloc 5 } with
    | error e =>
      simp only
      intro h
      cases h
      exact hno hl
    | ok v =>
      obtain ⟨⟨h1, h2, _⟩, _⟩ := hok v hl
      have : v.argc < v.argv.length := by omega
      simp [store, this]
  · intro v hv
    obtain ⟨v0, hb0, ⟨hlen, hargc, _⟩, hc, ht, hnull⟩ :=
      buildArgv_spec (fuel + input.length + 1) input (by omega)
    have := buildArgv_mono fuel (fuel + input.length + 1) input v hv (by omega)
    rw [hb0] at this
    cases this
    exact ⟨by omega, hlen, by omega, hnull, ht⟩
  · intro hf
    obtain ⟨v, hb, _⟩ := buildArgv_spec fuel input hf
    exact ⟨v, hb⟩

/-! ## Repeated and reversed transforms -/

theorem map_ne_of_mem (f g : Byte → Byte) (b : List Byte) (x : Byte) (hx : x ∈ b)
    (hne : f x ≠ g x) : b.map f ≠ b.map g := by
  intro h
  exact hne (List.map_inj_left.mp h x hx)

theorem map_ne_self_of_mem (f : Byte → Byte) (b : List Byte) (x : Byte) (hx : x ∈ b)
    (hne : f x ≠ x) : b.map f ≠ b := by
  intro h
  have h2 : b.map f = b.map id := by rw [List.map_id]; exact h
  exact hne (List.map_inj_left.mp h2 x hx)

theorem twice_byte_facts : ∀ c : Byte,
    (IsLower c.val → ((encryptByte (encryptByte c)).val : Int) =
        ord 'a' + (c.val - ord 'a' + 6) % 26 ∧
      ((decryptByte (decryptByte c)).val : Int) = ord 'a' + (c.val - ord 'a' - 6) % 26) ∧
    (IsUpper c.val → ((encryptByte (encryptByte c)).val : Int) =
        ord 'A' + (c.val - ord 'A' + 6) % 26 ∧
      ((decryptByte (decryptByte c)).val : Int) = ord 'A' + (c.val - ord 'A' - 6) % 26) ∧
    (IsDigit c.val → ((encryptByte (encryptByte c)).val : Int) =
        ord '0' + (c.val - ord '0' + 6) % 10 ∧
      ((decryptByte (decryptByte c)).val : Int) = ord '0' + (c.val - ord '0' - 6) % 10) ∧
    (IsAlnum c.val → encryptByte (encryptByte c) ≠ encryptByte c ∧
      encryptByte (encryptByte c) ≠ c ∧ encryptByte c ≠ c ∧ decryptByte c ≠ c) ∧
    (¬ IsAlnum c.val → encryptByte (encryptByte c) = c ∧ encryptByte c = c ∧
      decryptByte c = c) := by
  decide

/-- C17 as stated fails: a file that holds the three bytes of `, !` holds the
same three bytes after one `encryptFile` and after two: the result of the second
run differs neither from the once-encrypted content nor from the original. -/
theorem C17_content_without_letters_is_fixed :
    ∃ w1 w2, encryptFile 4 "marks.txt".toList punctWorld = .ok (0, w1) ∧
      encryptFile 4 "marks.txt".toList w1 = .ok (0, w2) ∧
      punctWorld.fs "marks.txt".toList = some [44, 32, 33] ∧
      w1.fs "marks.txt".toList = some [44, 32, 33] ∧
      w2.fs "marks.txt".toList = some [44, 32, 33] :=
  ⟨_, _, rfl, rfl, rfl, rfl, rfl⟩

/-- C17 amended: running `encryptFile` on already-encrypted content (and
`decryptFile` on content that was not encrypted) returns 0 and yields a further
shift: two runs of `encryptFile` move each letter by +6 mod 26 and each digit by
+6 mod 10 and fix every other byte; when the content holds at least one letter
or digit, the result differs from both the once-encrypted content and the
original content, and `decryptFile` changes the content. -/
theorem C17_second_run_shifts_further (fuel : Nat) (filename : CStr) (w : World)
    (b : List Byte) (hb : w.fs filename = some b) (hf : b.length < fuel) :
    (∃ w1 w2, encryptFile fuel filename w = .ok (0, w1) ∧
      encryptFile fuel filename w1 = .ok (0, w2) ∧
      w1.fs filename = some (b.map encryptByte) ∧
      w2.fs filename = some (b.map (fun c => encryptByte (encryptByte c))) ∧
      ((∃ x ∈ b, IsAlnum x.val) →
        b.map (fun c => encryptByte (encryptByte c)) ≠ b.map encryptByte ∧
        b.map (fun c => encryptByte (encryptByte c)) ≠ b)) ∧
    (∃ w3, decryptFile fuel filename w = .ok (0, w3) ∧
      w3.fs filename = some (b.map decryptByte) ∧
      ((∃ x ∈ b, IsAlnum x.val) → b.map decryptByte ≠ b)) ∧
    (∀ c : Byte,
      (IsLower c.val → ((encryptByte (encryptByte c)).val : Int) =
        ord 'a' + (c.val - ord 'a' + 6) % 26) ∧
      (IsUpper c.val → ((encryptByte (encryptByte c)).val : Int) =
        ord 'A' + (c.val - ord 'A' + 6) % 26) ∧
      (IsDigit c.val → ((encryptByte (encryptByte c)).val : Int) =
        ord '0' + (c.val - ord '0' + 6) % 10) ∧
      (¬ IsAlnum c.val → encryptByte (encryptByte c) = c)) := by
  have h1 := encryptFile_some fuel filename w b hb hf
  have hb1 : (World.mk (w.fs.write filename (b.map encryptByte))
      (w.trace ++ [Event.encryptFile filename, Event.fopen filename])).fs filename =
      some (b.map encryptByte) := by
    simp [FS.write]
  have h2 := encryptFile_some fuel filename _ (b.map encryptByte) hb1 (by simpa using hf)
  have h3 := decryptFile_some fuel filename w b hb hf
  refine ⟨⟨_, _, h1, h2, hb1, ?_, ?_⟩, ⟨_, h3, ?_, ?_⟩, ?_⟩
  · simp [FS.write]
  · rintro ⟨x, hx, hal⟩
    have hfacts := (twice_byte_facts x).2.2.2.1 hal
    exact ⟨map_ne_of_mem _ _ b x hx hfacts.1, map_ne_self_of_mem _ b x hx hfacts.2.1⟩
  · simp [FS.write]
  · rintro ⟨x, hx, hal⟩
    have hfacts := (twice_byte_facts x).2.2.2.1 hal
    exact map_ne_self_of_mem _ b x hx hfacts.2.2.2
  · intro c
    have hc := twice_byte_facts c
    exact ⟨fun h => (hc.1 h).1, fun h => (hc.2.1 h).1, fun h => (hc.2.2.1 h).1,
      fun h => (hc.2.2.2.2 h).1⟩

/-- A concrete instance of C17: `notes.txt` in the demo world. -/
theorem C17_second_run_shifts_further_witness :
    demoWorld.fs "notes.txt".toList = some demoBytes ∧ demoBytes.length < 8 ∧
    ((∃ w1 w2, encryptFile 8 "notes.txt".toList demoWorld = .ok (0, w1) ∧
      encryptFile 8 "notes.txt".toList w1 = .ok (0, w2) ∧
      w1.fs "notes.txt".toList = some (demoBytes.map encryptByte) ∧
      w2.fs "notes.txt".toList = some (demoBytes.map (fun c => encryptByte (encryptByte c))) ∧
      ((∃ x ∈ demoBytes, IsAlnum x.val) →
        demoBytes.map (fun c => encryptByte (encryptByte c)) ≠ demoBytes.map encryptByte ∧
        demoBytes.map (fun c => encryptByte (encryptByte c)) ≠ demoBytes)) ∧
    (∃ w3, decryptFile 8 "notes.txt".toList demoWorld = .ok (0, w3) ∧
      w3.fs "notes.txt".toList = some (demoBytes.map decryptByte) ∧
      ((∃ x ∈ demoBytes, IsAlnum x.val) → demoBytes.map decryptByte ≠ demoBytes)) ∧
    (∀ c : Byte,
      (IsLower c.val → ((encryptByte (encryptByte c)).val : Int) =
        ord 'a' + (c.val - ord 'a' + 6) % 26) ∧
      (IsUpper c.val → ((encryptByte (encryptByte c)).val : Int) =
        ord 'A' + (c.val - ord 'A' + 6) % 26) ∧
      (IsDigit c.val → ((encryptByte (encryptByte c)).val : Int) =
        ord '0' + (c.val - ord '0' + 6) % 10) ∧
      (¬ IsAlnum c.val → encryptByte (encryptByte c) = c))) :=
  ⟨by decide, by decide,
    C17_second_run_shifts_further 8 "notes.txt".toList demoWorld demoBytes
      (by decide) (by decide)⟩

/-- C18: the byte transforms of `encryptFile` and `decryptFile` are two-sided
inverses on all 256 byte values, so each is a bijection of the bytes, and
`decryptFile` followed by `encryptFile` on an existing file (with fuel for the
two loops) returns 0 twice and leaves the file holding what it held. -/
theorem C18_two_sided_inverses (fuel : Nat) (filename : CStr) (w : World)
    (b : List Byte) (hb : w.fs filename = some b) (hf : b.length < fuel) :
    (∀ c : Byte, encryptByte (decryptByte c) = c ∧ decryptByte (encryptByte c) = c) ∧
    (∀ c : Byte, encryptChar (decryptChar c.val) = c.val ∧
      decryptChar (encryptChar c.val) = c.val) ∧
    Function.Bijective encryptByte ∧ Function.Bijective decryptByte ∧
    ∃ w1 w2, decryptFile fuel filename w = .ok (0, w1) ∧
      encryptFile fuel filename w1 = .ok (0, w2) ∧
      w2.fs filename = some b ∧ ∀ p, w2.fs p = w.fs p := by
  have hinv : ∀ c : Byte, encryptByte (decryptByte c) = c ∧ decryptByte (encryptByte c) = c :=
    fun c => ⟨encryptByte_decryptByte c, decryptByte_encryptByte c⟩
  have hbe : Function.Bijective encryptByte :=
    ⟨Function.LeftInverse.injective decryptByte_encryptByte,
     Function.RightInverse.surjective encryptByte_decryptByte⟩
  have hbd : Function.Bijective decryptByte :=
    ⟨Function.LeftInverse.injective encryptByte_decryptByte,
     Function.RightInverse.surjective decryptByte_encryptByte⟩
  have h1 := decryptFile_some fuel filename w b hb hf
  have hb1 : (World.mk (w.fs.write filename (b.map decryptByte))
      (w.trace ++ [Event.decryptFile filename, Event.fopen filename])).fs filename =
      some (b.map decryptByte) := by
    simp [FS.write]
  have h2 := encryptFile_some fuel filename _ (b.map decryptByte) hb1 (by simpa using hf)
  have hmap : (b.map decryptByte).map encryptByte = b := by
    rw [List.map_map]
    have : (encryptByte ∘ decryptByte) = id := funext encryptByte_decryptByte
    rw [this, List.map_id]
  refine ⟨hinv, by decide, hbe, hbd, _, _, h1, h2, ?_, ?_⟩
  · simp [FS.write, hmap]
  · intro p
    by_cases hp : p = filename
    · simp [FS.write, hp, hmap, hb]
    · simp [FS.write, hp]

/-- A concrete instance of C18: `notes.txt` in the demo world. -/
theorem C18_two_sided_inverses_witness :
    demoWorld.fs "notes.txt".toList = some demoBytes ∧ demoBytes.length < 8 ∧
    ((∀ c : Byte, encryptByte (decryptByte c) = c ∧ decryptByte (encryptByte c) = c) ∧
    (∀ c : Byte, encryptChar (decryptChar c.val) = c.val ∧
      decryptChar (encryptChar c.val) = c.val) ∧
    Function.Bijective encryptByte ∧ Function.Bijective decryptByte ∧
    ∃ w1 w2, decryptFile 8 "notes.txt".toList demoWorld = .ok (0, w1) ∧
      encryptFile 8 "notes.txt".toList w1 = .ok (0, w2) ∧
      w2.fs "notes.txt".toList = some demoBytes ∧ ∀ p, w2.fs p = demoWorld.fs p) :=
  ⟨by decide, by decide,
    C18_two_sided_inverses 8 "notes.txt".toList demoWorld demoBytes (by decide) (by decide)⟩

/-! ## The final capacity -/

theorem tokenLoop_tight : ∀ (fuel : Nat) (tok : Option (CStr × CStr)) (v v1 : ArgVec),
    v.Tight → tokenLoop fuel tok v = .ok v1 → v1.Tight := by
  intro fuel
  induction fuel with
  | zero => intro tok v v1 _ h; simp [tokenLoop] at h
  | succ n ih =>
    intro tok v v1 hv h
    cases tok with
    | none =>
      simp only [tokenLoop, Except.ok.injEq] at h
      rw [← h]; exact hv
    | some p =>
      obtain ⟨t, rest⟩ := p
      obtain ⟨hargc, hsz, k, hk⟩ := hv
      have h5 : 5 ≤ v.size := by
        rw [hk]; have := @Nat.one_le_two_pow k; omega
      have key : ∃ g : ArgVec,
          (if v.argc ≥ v.size - 1 then
            ({ v with size := v.size * 2, argv := realloc v.argv (v.size * 2) } : ArgVec)
           else v) = g ∧
          g.argc + 1 < g.size ∧ (g.size = 5 ∨ g.size ≤ 2 * (g.argc + 1)) ∧
          ∃ j, g.size = 5 * 2 ^ j := by
        by_cases hg : v.argc ≥ v.size - 1
        · refine ⟨_, rfl, ?_⟩
          rw [if_pos hg]
          refine ⟨?_, Or.inr ?_, ⟨k + 1, ?_⟩⟩
          · show v.argc + 1 < v.size * 2
            omega
          · show v.size * 2 ≤ 2 * (v.argc + 1)
            omega
          · show v.size * 2 = 5 * 2 ^ (k + 1)
            rw [hk, Nat.pow_succ]; ring
        · refine ⟨_, rfl, ?_⟩
          rw [if_neg hg]
          refine ⟨by omega, ?_, ⟨k, hk⟩⟩
          rcases hsz with h0 | h0
          · exact Or.inl h0
          · exact Or.inr (by omega)
      obtain ⟨g, hg, g1, g2, g3⟩ := key
      simp only [tokenLoop, hg] at h
      split at h
      · cases h
      · rename_i a ha
        exact ih _ (ArgVec.mk g.size (g.argc + 1) a) v1 ⟨g1, g2, g3⟩ h

theorem tight_least (size n k : Nat) (hk : size = 5 * 2 ^ k) (hsz : size = 5 ∨ size ≤ 2 * n) :
    ∀ j, n < 5 * 2 ^ j → k ≤ j := by
  intro j hj
  cases k with
  | zero => exact Nat.zero_le _
  | succ m =>
    have hp : size = 10 * 2 ^ m := by rw [hk, Nat.pow_succ]; ring
    have h1 : 1 ≤ 2 ^ m := @Nat.one_le_two_pow m
    have h2 : size ≤ 2 * n := by
      rcases hsz with h | h
      · omega
      · exact h
    have h3 : 2 ^ m < 2 ^ j := by omega
    have := (Nat.pow_lt_pow_iff_right (by decide : 1 < 2)).mp h3
    omega

theorem buildArgv_tight (fuel : Nat) (input : CStr) (v : ArgVec)
    (hb : buildArgv fuel input = .ok v) : v.Tight := by
  have h0 : ArgVec.Tight { size := 5, argc := 0, argv := calloc 5 } :=
    ⟨by decide, Or.inl rfl, ⟨0, by simp⟩⟩
  simp only [buildArgv] at hb
  split at hb
  · cases hb
  · rename_i v0 hl
    have ht := tokenLoop_tight fuel _ _ v0 h0 hl
    split at hb
    · cases hb
    · cases hb
      exact ht

/-- C20: for every input line with `n` tokens (fuel above the length of the
line), the capacity of the argument vector when tokenization finishes is
`5 * 2 ^ k` for the least `k` that makes it greater than `n`: 5 for `n ≤ 4`,
10 for `5 ≤ n ≤ 9`, 20 for `10 ≤ n ≤ 19`; a line of 10 tokens ends after exactly
two doublings. -/
theorem C20_final_capacity (fuel : Nat) (input : CStr) (hf : input.length < fuel) :
    ∃ v k, buildArgv fuel input = .ok v ∧ v.argc = (specTokens input).length ∧
      v.size = 5 * 2 ^ k ∧ (specTokens input).length < 5 * 2 ^ k ∧
      (∀ j, (specTokens input).length < 5 * 2 ^ j → k ≤ j) ∧
      ((specTokens input).length ≤ 4 → v.size = 5) ∧
      (5 ≤ (specTokens input).length → (specTokens input).length ≤ 9 → v.size = 10) ∧
      (10 ≤ (specTokens input).length → (specTokens input).length ≤ 19 → v.size = 20) ∧
      ((specTokens input).length = 10 → k = 2) := by
  obtain ⟨v, hb, _, hc, _, _⟩ := buildArgv_spec fuel input hf
  obtain ⟨h1, h2, k, hk⟩ := buildArgv_tight fuel input v hb
  have hleast := tight_least v.size v.argc k hk h2
  rw [hc] at h1 hleast
  have hpow : ∀ m, m ≤ 2 → v.size = 5 * 2 ^ k → k ≤ m → (m = 0 ∨ 5 * 2 ^ (m - 1) ≤
      (specTokens input).length) → v.size = 5 * 2 ^ m := by
    intro m hm hsz hkm hlow
    have : k = m := by
      rcases Nat.lt_or_ge k m with hlt | hge
      · exfalso
        rcases hlow with h0 | h0
        · omega
        · have : 2 ^ k ≤ 2 ^ (m - 1) := Nat.pow_le_pow_right (by decide) (by omega)
          omega
      · omega
    rw [hsz, this]
  refine ⟨v, k, hb, hc, hk, by omega, hleast, ?_, ?_, ?_, ?_⟩
  · intro hn
    have := hpow 0 (by decide) hk (hleast 0 (by simp; omega)) (Or.inl rfl)
    simpa using this
  · intro h5 h9
    have := hpow 1 (by decide) hk (hleast 1 (by simp; omega)) (Or.inr (by simp; omega))
    simpa using this
  · intro h10 h19
    have := hpow 2 (by decide) hk (hleast 2 (by simp; omega)) (Or.inr (by simp; omega))
    simpa using this
  · intro h10
    have hk2 : k ≤ 2 := hleast 2 (by simp; omega)
    rcases Nat.lt_or_ge k 2 with hlt | hge
    · exfalso
      have : 2 ^ k ≤ 2 ^ 1 := Nat.pow_le_pow_right (by decide) (by omega)
      omega
    · omega

/-- A concrete instance of C20: the line of ten tokens. -/
theorem C20_final_capacity_witness :
    tenTokens.length < 21 ∧
    ∃ v k, buildArgv 21 tenTokens = .ok v ∧ v.argc = (specTokens tenTokens).length ∧
      v.size = 5 * 2 ^ k ∧ (specTokens tenTokens).length < 5 * 2 ^ k ∧
      (∀ j, (specTokens tenTokens).length < 5 * 2 ^ j → k ≤ j) ∧
      ((specTokens tenTokens).length ≤ 4 → v.size = 5) ∧
      (5 ≤ (specTokens tenTokens).length → (specTokens tenTokens).length ≤ 9 → v.size = 10) ∧
      (10 ≤ (specTokens tenTokens).length → (specTokens tenTokens).length ≤ 19 →
        v.size = 20) ∧
      ((specTokens tenTokens).length = 10 → k = 2) :=
  ⟨by decide, C20_final_capacity 21 tenTokens (by decide)⟩
end MyTerminal
